import Mathlib

/-!
Shallow embedding of the mini-lexer calculator (`src/main.rs`): a tokenizer
over one input line and a three-tier recursive-descent parser/evaluator.

Modelling conventions:
* The source line is a `List Char`; the tokenizer's byte index becomes a list
  index (all inputs relevant to the claims are ASCII, where the two agree).
* Rust `f32` values are modelled by `ℚ`.  Every arithmetic claim evaluates
  only values that `f32` represents exactly, and the parser's control flow
  never depends on numeric values, so the substitution is faithful for all
  claims.  `f32::powf` is modelled exactly for integral exponents
  (the only exponents the claims exercise); `/` is rational division
  (total, with `q / 0 = 0` in place of IEEE `inf`/`NaN` — again only the
  shape `Ok`/`Err` of results matters where this could differ.)
* Rust's `Iterator::next(&mut self)` becomes a pure step function
  `Tokenizer.next : Tokenizer → Option Token × Tokenizer` that also returns
  the successor state (Rust mutates `self.index` even on a `None` return).
* `std::iter::Peekable` is modelled with its one-slot buffer
  (`peeked : Option (Option Token)`), exactly as in the Rust standard library.
* The three parser loops (`expo`, `term`, `expression` in the source) consume
  at least one token per iteration; they are written with an explicit fuel
  argument instantiated at `size + 1`, which is proven sufficient by the
  `..._yields` lemmas below (each loop iteration strictly shrinks the
  remaining stream), so the fuel bound is never the reason a loop stops.
-/

namespace MiniLexer

/-- `OperatorType` from the source: the five operator kinds. -/
inductive OperatorType where
  | Add
  | Subtract
  | Multiply
  | Divide
  | Power
deriving DecidableEq, Repr

/-- `Display for OperatorType`: canonical display form of each operator. -/
def OperatorType.display : OperatorType → String
  | .Add => "+"
  | .Subtract => "-"
  | .Multiply => "*"
  | .Divide => "/"
  | .Power => "**"

/-- `TokenType` from the source: a number (an `f32`, modelled by `ℚ`) or an operator. -/
inductive TokenType where
  | Number : ℚ → TokenType
  | Operator : OperatorType → TokenType
deriving DecidableEq, Repr

/-- `Display for TokenType`.  Only the `Operator` arm is ever reachable in an
error message (`factor` returns `Ok` on a `Number` before formatting it). -/
def TokenType.display : TokenType → String
  | .Number n => "Number(" ++ toString n ++ ")"
  | .Operator op => "Operator(" ++ op.display ++ ")"

/-- `Token` from the source.  The Rust field `end` is a Lean keyword and is
renamed `stop`; `literal` is the slice `&input[start..stop]`. -/
structure Token where
  type_ : TokenType
  start : Nat
  stop : Nat
  literal : List Char
deriving DecidableEq, Repr

/-- The character class consumed by the number branch of the tokenizer:
`c.is_ascii_digit() || c == '.'`. -/
def numChar (c : Char) : Bool := c.isDigit || c == '.'

/-- Digit run to a natural number, most significant digit first. -/
def digitsVal (s : List Char) : Nat :=
  s.foldl (fun a c => a * 10 + (c.toNat - 48)) 0

/-- Decimal value of a digits-and-dot literal: the digits before the first
`'.'` form the integer part, those after it the fractional part. -/
def numVal (s : List Char) : ℚ :=
  let ip := s.takeWhile (fun c => !(c == '.'))
  let fp := (s.dropWhile (fun c => !(c == '.'))).drop 1
  (digitsVal ip : ℚ) + (digitsVal fp : ℚ) / ((10 : ℚ) ^ fp.length)

/-- Models `literal.parse::<f32>()` for the literals the tokenizer can build
(maximal runs of ASCII digits and `'.'`): Rust accepts such a run exactly when
it contains at least one digit and at most one dot, e.g. `"1.2.3"` and `"."`
fail while `"1."` and `".5"` succeed.  The numeric value is exact (`ℚ`) rather
than rounded to `f32`; no claim depends on a value `f32` cannot represent. -/
def parseNum (s : List Char) : Option ℚ :=
  if s.all numChar && s.any (fun c => c.isDigit) && decide (s.count '.' ≤ 1) then
    some (numVal s)
  else
    none

/-- `Tokenizer` from the source: the input line and the advancing index. -/
structure Tokenizer where
  input : List Char
  index : Nat
deriving DecidableEq, Repr

/-- `&input[s..e]` on the char-list model. -/
def listSlice (l : List Char) (s e : Nat) : List Char := (l.drop s).take (e - s)

/-- `Tokenizer::peek`: `self.input.chars().nth(self.index + 1)`. -/
def Tokenizer.peek (t : Tokenizer) : Option Char := t.input[t.index + 1]?

/-- The whitespace-skipping loop at the top of `Tokenizer::next`:
`while index < len && input[index].is_whitespace() { index += 1 }`, i.e. the
index advances past the maximal whitespace run starting at it. -/
def Tokenizer.skipWs (t : Tokenizer) : Tokenizer :=
  ⟨t.input, t.index + ((t.input.drop t.index).takeWhile Char.isWhitespace).length⟩

/-- `Tokenizer::next` (the `Iterator` impl), returning the produced item and
the successor state.  The number branch consumes the maximal run of digits and
dots and then parses it (`?` turns a parse failure into `None` with the index
already advanced past the run); the operator branch handles `+ - * /` with a
one-character peek distinguishing `**` from `*`, and any other character
returns `None` without advancing the index. -/
def Tokenizer.next (t : Tokenizer) : Option Token × Tokenizer :=
  let t1 : Tokenizer := t.skipWs
  match t1.input[t1.index]? with
  | none => (none, t1)
  | some ch =>
    let start := t1.index
    if numChar ch then
      let t2 : Tokenizer := ⟨t1.input, t1.index + ((t1.input.drop t1.index).takeWhile numChar).length⟩
      let literal := listSlice t1.input start t2.index
      match parseNum literal with
      | none => (none, t2)
      | some num => (some ⟨.Number num, start, t2.index, literal⟩, t2)
    else
      let opt : Option (TokenType × Nat) :=
        match ch with
        | '+' => some (.Operator .Add, 1)
        | '-' => some (.Operator .Subtract, 1)
        | '*' =>
          if t1.peek == some '*' then some (.Operator .Power, 2)
          else some (.Operator .Multiply, 1)
        | '/' => some (.Operator .Divide, 1)
        | _ => none
      match opt with
      | none => (none, t1)
      | some (tt, w) =>
        (some ⟨tt, start, start + w, listSlice t1.input start (start + w)⟩, ⟨t1.input, start + w⟩)

/-- `Tokenizer::tokenize`: a fresh cursor at the start of the line. -/
def Tokenizer.tokenize (source : List Char) : Tokenizer := ⟨source, 0⟩

/-- Collect at most `fuel` tokens by iterating `Tokenizer.next` until it
returns `none` (how the test `test_tokenize` materialises the iterator). -/
def Tokenizer.toListN : Tokenizer → Nat → List Token
  | _, 0 => []
  | t, n + 1 =>
    match t.next with
    | (none, _) => []
    | (some tok, t') => tok :: t'.toListN n

/-- The token-kind sequence a line produces (`input.length` successful calls
always suffice, see `C9`). -/
def tokenKinds (s : List Char) : List TokenType :=
  ((Tokenizer.tokenize s).toListN (s.length + 1)).map Token.type_

/-- `Parser` from the source: `tokenizer: Peekable<Tokenizer>`, modelled with
`Peekable`'s one-slot buffer made explicit. -/
structure Parser where
  peeked : Option (Option Token)
  tokenizer : Tokenizer
deriving DecidableEq, Repr

/-- `Peekable::peek`: fill the buffer from the underlying iterator if it is
empty, and report the buffered item. -/
def Parser.peek (p : Parser) : Option Token × Parser :=
  match p.peeked with
  | some o => (o, p)
  | none =>
    match p.tokenizer.next with
    | (o, t') => (o, ⟨some o, t'⟩)

/-- `Peekable::next`: take the buffered item if present, else pull from the
underlying iterator. -/
def Parser.next (p : Parser) : Option Token × Parser :=
  match p.peeked with
  | some o => (o, ⟨none, p.tokenizer⟩)
  | none =>
    match p.tokenizer.next with
    | (o, t') => (o, ⟨none, t'⟩)

/-- `Parser::accept`: peek, and consume the next token exactly when it exists
and satisfies `check`; otherwise report no match. -/
def Parser.accept (p : Parser) (check : TokenType → Bool) : Option Token × Parser :=
  match p.peek with
  | (some token, p1) => if check token.type_ then p1.next else (none, p1)
  | (none, p1) => (none, p1)

/-- `Parser::except`: like `accept` but a failed match is an error. -/
def Parser.except (p : Parser) (check : TokenType → Bool) : Except String (Token × Parser) :=
  match p.accept check with
  | (some token, p1) => .ok (token, p1)
  | (none, _) => .error "unexpected token"

/-- `Parser::factor`: consume one token; a number yields its value, an
operator is a (formatted) parse error, an exhausted stream is
"unexpected end of input". -/
def Parser.factor (p : Parser) : Except String (ℚ × Parser) :=
  match p.next with
  | (some token, p1) =>
    match token.type_ with
    | .Number n => .ok (n, p1)
    | _ => .error ("expected number, got " ++ token.type_.display)
  | (none, _) => .error "unexpected end of input"

/-- The predicate `matches!(t, Operator(Power))` used by `expo`'s loop. -/
def powCheck : TokenType → Bool
  | .Operator .Power => true
  | _ => false

/-- The predicate `matches!(t, Operator(Multiply) | Operator(Divide))` used by
`term`'s loop. -/
def mdCheck : TokenType → Bool
  | .Operator .Multiply => true
  | .Operator .Divide => true
  | _ => false

/-- The predicate `matches!(t, Operator(Add) | Operator(Subtract))` used by
`expression`'s loop. -/
def asCheck : TokenType → Bool
  | .Operator .Add => true
  | .Operator .Subtract => true
  | _ => false

/-- Models `f32::powf`.  Exact for integral exponents; a non-integral exponent
(never produced by any claim, and never influencing control flow) falls back
to `0`. -/
def powf (b e : ℚ) : ℚ :=
  if e.den = 1 then
    if 0 ≤ e.num then b ^ e.num.toNat else (b ^ (-e.num).toNat)⁻¹
  else 0

/-- Tokens remaining before the cursor reaches the end of the line, counting a
buffered token: an upper bound on how often the parser can still consume. -/
def Parser.size (p : Parser) : Nat :=
  (p.tokenizer.input.length - p.tokenizer.index) +
    (match p.peeked with
     | some (some _) => 1
     | _ => 0)

/-- The `while let Some(op) = accept(..Power..)` loop of `Parser::expo`,
folding `base = base.powf(exponent)`.  The fuel only bounds the iteration
count; `expo` passes `size + 1`, which `expoLoop_yields` proves sufficient
(the `0` case is then unreachable). -/
def Parser.expoLoop : Nat → ℚ → Parser → Except String (ℚ × Parser)
  | 0, base, p => .ok (base, p)
  | fuel + 1, base, p =>
    match p.accept powCheck with
    | (none, p1) => .ok (base, p1)
    | (some op, p1) =>
      match p1.factor with
      | .error e => .error e
      | .ok (exponent, p2) =>
        Parser.expoLoop fuel
          (match op.type_ with
           | .Operator .Power => powf base exponent
           | _ => base) p2  -- the `_` arm is `unreachable!()` in the source

/-- `Parser::expo`: one `factor`, then the `**` fold. -/
def Parser.expo (p : Parser) : Except String (ℚ × Parser) :=
  match p.factor with
  | .error e => .error e
  | .ok (base, p1) => Parser.expoLoop (p1.size + 1) base p1

/-- The `*` / `/` loop of `Parser::term`. -/
def Parser.termLoop : Nat → ℚ → Parser → Except String (ℚ × Parser)
  | 0, left, p => .ok (left, p)
  | fuel + 1, left, p =>
    match p.accept mdCheck with
    | (none, p1) => .ok (left, p1)
    | (some op, p1) =>
      match p1.expo with
      | .error e => .error e
      | .ok (right, p2) =>
        Parser.termLoop fuel
          (match op.type_ with
           | .Operator .Multiply => left * right
           | .Operator .Divide => left / right
           | _ => left) p2  -- the `_` arm is `unreachable!()` in the source

/-- `Parser::term`: one `expo`, then the `*`/`/` fold. -/
def Parser.term (p : Parser) : Except String (ℚ × Parser) :=
  match p.expo with
  | .error e => .error e
  | .ok (left, p1) => Parser.termLoop (p1.size + 1) left p1

/-- The `+` / `-` loop of `Parser::expression`. -/
def Parser.exprLoop : Nat → ℚ → Parser → Except String (ℚ × Parser)
  | 0, left, p => .ok (left, p)
  | fuel + 1, left, p =>
    match p.accept asCheck with
    | (none, p1) => .ok (left, p1)
    | (some op, p1) =>
      match p1.term with
      | .error e => .error e
      | .ok (right, p2) =>
        Parser.exprLoop fuel
          (match op.type_ with
           | .Operator .Add => left + right
           | .Operator .Subtract => left - right
           | _ => left) p2  -- the `_` arm is `unreachable!()` in the source

/-- `Parser::expression`, the entry point: one `term`, then the `+`/`-` fold. -/
def Parser.expression (p : Parser) : Except String (ℚ × Parser) :=
  match p.term with
  | .error e => .error e
  | .ok (left, p1) => Parser.exprLoop (p1.size + 1) left p1

/-- A fresh parser over a line, as built once per REPL iteration in `main`:
`Tokenizer::tokenize(&buf).peekable()` wrapped in `Parser`. -/
def mkParser (s : List Char) : Parser := ⟨none, Tokenizer.tokenize s⟩

/-- One evaluation cycle of `main` on a line: the value of
`parser.expression()`. -/
def evalChars (s : List Char) : Except String ℚ :=
  match (mkParser s).expression with
  | .ok (v, _) => .ok v
  | .error e => .error e

instance : DecidableEq (Except String ℚ) := fun a b =>
  match a, b with
  | .ok x, .ok y =>
    if h : x = y then isTrue (by rw [h]) else isFalse (fun hc => h (Except.ok.inj hc))
  | .error x, .error y =>
    if h : x = y then isTrue (by rw [h]) else isFalse (fun hc => h (Except.error.inj hc))
  | .ok _, .error _ => isFalse (fun hc => Except.noConfusion hc)
  | .error _, .ok _ => isFalse (fun hc => Except.noConfusion hc)

/-! ### Token-stream shapes of the three grammar tiers

`expoT b es` is the token-type sequence `NUMBER (** NUMBER)*` of one exponent
tier; `mulChainT` / `addChainT` are the continuation chains of the `term` and
`expression` tiers.  The `...Val` functions state the left folds the loops
compute. -/

/-- The `(** NUMBER)*` continuation of an exponent tier. -/
def powChainT (es : List ℚ) : List TokenType :=
  es.foldr (fun e acc => .Operator .Power :: .Number e :: acc) []

/-- Token types of a full exponent tier: `NUMBER (** NUMBER)*`. -/
def expoT (b : ℚ) (es : List ℚ) : List TokenType := .Number b :: powChainT es

/-- The value `expo` computes on such a tier: the left fold of `powf`. -/
def expoVal (b : ℚ) (es : List ℚ) : ℚ := es.foldl powf b

/-- Data of one exponent tier continuation step of `term`: the operator
(`Multiply` or `Divide`) and the following exponent tier. -/
abbrev MulData := OperatorType × ℚ × List ℚ

/-- The `((* | /) exponent)*` continuation of a term tier. -/
def mulChainT (ms : List MulData) : List TokenType :=
  ms.foldr (fun x acc => .Operator x.1 :: expoT x.2.1 x.2.2 ++ acc) []

/-- One fold step of `term`'s loop. -/
def mdStep (acc : ℚ) (x : MulData) : ℚ :=
  match x.1 with
  | .Multiply => acc * expoVal x.2.1 x.2.2
  | .Divide => acc / expoVal x.2.1 x.2.2
  | _ => acc

/-- Data of a full term tier. -/
abbrev TermData := ℚ × List ℚ × List MulData

/-- Token types of a full term tier. -/
def termTokensD (d : TermData) : List TokenType := expoT d.1 d.2.1 ++ mulChainT d.2.2

/-- The value `term` computes on such a tier. -/
def termValD (d : TermData) : ℚ := d.2.2.foldl mdStep (expoVal d.1 d.2.1)

/-- The `((+ | -) term)*` continuation of an expression. -/
def addChainT (xs : List (OperatorType × TermData)) : List TokenType :=
  xs.foldr (fun x acc => .Operator x.1 :: termTokensD x.2 ++ acc) []

/-- One fold step of `expression`'s loop. -/
def asStep (acc : ℚ) (x : OperatorType × TermData) : ℚ :=
  match x.1 with
  | .Add => acc + termValD x.2
  | .Subtract => acc - termValD x.2
  | _ => acc

/-- Token types of a full expression. -/
def exprT (d : TermData) (xs : List (OperatorType × TermData)) : List TokenType :=
  termTokensD d ++ addChainT xs

/-- The value `expression` computes on such a stream. -/
def exprVal (d : TermData) (xs : List (OperatorType × TermData)) : ℚ :=
  xs.foldl asStep (termValD d)

/-- The operators a term continuation may carry. -/
abbrev MDValid (ms : List MulData) : Prop :=
  ∀ x ∈ ms, x.1 = OperatorType.Multiply ∨ x.1 = OperatorType.Divide

/-- Wellformed term data. -/
abbrev TermDValid (d : TermData) : Prop := MDValid d.2.2

/-- Wellformed expression continuation data. -/
abbrev ASValid (xs : List (OperatorType × TermData)) : Prop :=
  ∀ x ∈ xs, (x.1 = OperatorType.Add ∨ x.1 = OperatorType.Subtract) ∧ TermDValid x.2

/-! ### Grammar-shaped source text (for the totality claim)

A `SrcExpr` is an arbitrary line built per the grammar
`expression := term (("+"|"-") term)*` etc., with arbitrary whitespace in
every gap and arbitrary valid numeric literals. -/

/-- All characters whitespace. -/
abbrev allWs (l : List Char) : Prop := ∀ c ∈ l, c.isWhitespace = true

/-- A digits-and-dots run that `f32` parsing accepts: at least one digit, at
most one dot. -/
abbrev ValidNumeral (s : List Char) : Prop :=
  (∀ c ∈ s, numChar c = true) ∧ s.count '.' ≤ 1 ∧ ∃ c ∈ s, c.isDigit = true

/-- The display text of each operator, as it appears in source. -/
def opText : OperatorType → List Char
  | .Add => ['+']
  | .Subtract => ['-']
  | .Multiply => ['*']
  | .Divide => ['/']
  | .Power => ['*', '*']

/-- A numeral with the whitespace preceding it. -/
structure SrcNum where
  ws : List Char
  lit : List Char

def SrcNum.render (n : SrcNum) : List Char := n.ws ++ n.lit

def SrcNum.val (n : SrcNum) : ℚ := numVal n.lit

abbrev SrcNum.Valid (n : SrcNum) : Prop := allWs n.ws ∧ ValidNumeral n.lit

/-- An exponent tier in source: a numeral, then `(ws ** numeral)*`. -/
structure SrcExpo where
  head : SrcNum
  rest : List (List Char × SrcNum)

def expoRestRender (l : List (List Char × SrcNum)) : List Char :=
  l.foldr (fun x acc => x.1 ++ opText .Power ++ x.2.render ++ acc) []

def SrcExpo.render (e : SrcExpo) : List Char := e.head.render ++ expoRestRender e.rest

abbrev SrcExpo.Valid (e : SrcExpo) : Prop :=
  e.head.Valid ∧ ∀ x ∈ e.rest, allWs x.1 ∧ x.2.Valid

def SrcExpo.dataEs (e : SrcExpo) : List ℚ := e.rest.map fun x => x.2.val

/-- A term tier in source: an exponent tier, then `(ws (*|/) exponent)*`. -/
structure SrcTerm where
  head : SrcExpo
  rest : List (List Char × OperatorType × SrcExpo)

def termRestRender (l : List (List Char × OperatorType × SrcExpo)) : List Char :=
  l.foldr (fun x acc => x.1 ++ opText x.2.1 ++ x.2.2.render ++ acc) []

def SrcTerm.render (t : SrcTerm) : List Char := t.head.render ++ termRestRender t.rest

abbrev SrcTerm.Valid (t : SrcTerm) : Prop :=
  t.head.Valid ∧
    ∀ x ∈ t.rest, allWs x.1 ∧ (x.2.1 = .Multiply ∨ x.2.1 = .Divide) ∧ x.2.2.Valid

def SrcTerm.data (t : SrcTerm) : TermData :=
  (t.head.head.val, t.head.dataEs, t.rest.map fun x => (x.2.1, x.2.2.head.val, x.2.2.dataEs))

/-- A whole line in source: a term, then `(ws (+|-) term)*`, then trailing
whitespace (e.g. the newline `read_line` leaves on the buffer). -/
structure SrcExpr where
  head : SrcTerm
  rest : List (List Char × OperatorType × SrcTerm)
  tws : List Char

def exprRestRender (l : List (List Char × OperatorType × SrcTerm)) : List Char :=
  l.foldr (fun x acc => x.1 ++ opText x.2.1 ++ x.2.2.render ++ acc) []

def SrcExpr.render (s : SrcExpr) : List Char :=
  s.head.render ++ exprRestRender s.rest ++ s.tws

abbrev SrcExpr.Valid (s : SrcExpr) : Prop :=
  s.head.Valid ∧
    (∀ x ∈ s.rest, allWs x.1 ∧ (x.2.1 = .Add ∨ x.2.1 = .Subtract) ∧ x.2.2.Valid) ∧
    allWs s.tws

/-! ### Observable streams -/

/-- `Steps t ts t'`: starting from `t`, `ts` are the next `ts.length` tokens
`Tokenizer.next` yields, arriving at state `t'`. -/
inductive Tokenizer.Steps : Tokenizer → List Token → Tokenizer → Prop where
  | nil (t : Tokenizer) : Steps t [] t
  | cons {t : Tokenizer} {tok : Token} {t' t'' : Tokenizer} {ts : List Token} :
      t.next = (some tok, t') → Steps t' ts t'' → Steps t (tok :: ts) t''

/-- `TYields t ts`: the tokenizer at `t` yields exactly the tokens `ts` and
then reports `none`. -/
inductive Tokenizer.TYields : Tokenizer → List Token → Prop where
  | nil {t t' : Tokenizer} : t.next = (none, t') → TYields t []
  | cons {t t' : Tokenizer} {tok : Token} {ts : List Token} :
      t.next = (some tok, t') → TYields t' ts → TYields t (tok :: ts)

/-- `YieldsT p tys`: the parser's lookahead stream at `p` yields exactly
tokens of the kinds `tys` and then reports `none`. -/
inductive Parser.YieldsT : Parser → List TokenType → Prop where
  | nil {p p' : Parser} : p.next = (none, p') → YieldsT p []
  | cons {p p' : Parser} {tok : Token} {tys : List TokenType} :
      p.next = (some tok, p') → YieldsT p' tys → YieldsT p (tok.type_ :: tys)

/-- The results of `n` successive `Parser.next` calls: the observable token
stream of a parser state, used to state the frame property of `accept`. -/
def Parser.trace : Parser → Nat → List (Option Token)
  | _, 0 => []
  | p, n + 1 => (p.next).1 :: Parser.trace (p.next).2 n

/-- `somesFrom t n`: starting from `t`, `n` consecutive `Tokenizer.next`
calls can all return `some`. -/
def Tokenizer.somesFrom : Tokenizer → Nat → Prop
  | _, 0 => True
  | t, n + 1 => ∃ tok t', t.next = (some tok, t') ∧ Tokenizer.somesFrom t' n

/-- Executable check that a parser state yields exactly the given token-kind
stream (used to discharge `YieldsT` hypotheses on concrete inputs). -/
def Parser.yieldsTB : Parser → List TokenType → Bool
  | p, [] =>
    match p.next with
    | (none, _) => true
    | (some _, _) => false
  | p, ty :: tys =>
    match p.next with
    | (some tok, p') => tok.type_ == ty && p'.yieldsTB tys
    | (none, _) => false

/-- A concrete grammar-shaped line, `"2 ** 3.5 * 4 + 17 \n"`, used to
instantiate the totality theorem on a closed input. -/
def sampleSrc : SrcExpr :=
  { head :=
      { head :=
          { head := { ws := [], lit := ['2'] },
            rest := [([' '], { ws := [' '], lit := ['3', '.', '5'] })] },
        rest := [([' '], OperatorType.Multiply, { head := { ws := [' '], lit := ['4'] }, rest := [] })] },
    rest := [([' '], OperatorType.Add,
      { head := { head := { ws := [' '], lit := ['1', '7'] }, rest := [] }, rest := [] })],
    tws := [' ', '\n'] }

/-! ### Character and list utilities -/

theorem ws_char_cases {c : Char} (h : c.isWhitespace = true) :
    c = ' ' ∨ c = '\t' ∨ c = '\r' ∨ c = '\n' := by
  simp [Char.isWhitespace] at h
  tauto

theorem ws_not_numChar {c : Char} (h : c.isWhitespace = true) : numChar c = false := by
  rcases ws_char_cases h with rfl | rfl | rfl | rfl <;> decide

theorem ws_ne_star {c : Char} (h : c.isWhitespace = true) : c ≠ '*' := by
  rcases ws_char_cases h with rfl | rfl | rfl | rfl <;> decide

theorem numChar_not_ws {c : Char} (h : numChar c = true) : c.isWhitespace = false := by
  cases hw : c.isWhitespace with
  | false => rfl
  | true => rw [ws_not_numChar hw] at h; exact absurd h (by simp)

theorem numChar_ne_star {c : Char} (h : numChar c = true) : c ≠ '*' := by
  rintro rfl
  exact absurd h (by decide)

theorem takeWhile_all_append {p : Char → Bool} {ws rest : List Char}
    (h1 : ∀ c ∈ ws, p c = true) (h2 : ∀ c, rest.head? = some c → p c = false) :
    (ws ++ rest).takeWhile p = ws := by
  induction ws with
  | nil =>
    cases rest with
    | nil => rfl
    | cons r rs =>
      simpa using List.takeWhile_cons_of_neg (p := p) (l := rs) (by simp [h2 r rfl])
  | cons a l ih =>
    rw [List.cons_append, List.takeWhile_cons_of_pos (h1 a (List.mem_cons_self a l)),
      ih fun c hc => h1 c (List.mem_cons_of_mem a hc)]

theorem length_takeWhile_le (p : Char → Bool) (l : List Char) :
    (l.takeWhile p).length ≤ l.length := by
  induction l with
  | nil => simp [List.takeWhile]
  | cons a l ih =>
    simp only [List.takeWhile]
    cases p a with
    | false => simp
    | true => simp only [List.length_cons]; omega

theorem getElem?_eq_head_drop (l : List Char) (i : Nat) : l[i]? = (l.drop i).head? :=
  (List.head?_drop l i).symm

theorem drop_of_drop_append {input pre post : List Char} {i : Nat}
    (hd : input.drop i = pre ++ post) :
    input.drop (i + pre.length) = post := by
  have : input.drop (i + pre.length) = (input.drop i).drop pre.length := by
    rw [List.drop_drop, Nat.add_comm]
  rw [this, hd, List.drop_left]

/-! ### Tokenizer step lemmas -/

theorem skipWs_of_split {input ws rest : List Char} {i : Nat}
    (hd : input.drop i = ws ++ rest)
    (hws : ∀ c ∈ ws, c.isWhitespace = true)
    (hrest : ∀ c, rest.head? = some c → c.isWhitespace = false) :
    Tokenizer.skipWs ⟨input, i⟩ = ⟨input, i + ws.length⟩ := by
  simp only [Tokenizer.skipWs]
  rw [hd, takeWhile_all_append hws hrest]

theorem parseNum_valid {lit : List Char} (hv : ValidNumeral lit) :
    parseNum lit = some (numVal lit) := by
  obtain ⟨hall, hcount, c, hc, hcd⟩ := hv
  have hb : (lit.all numChar && lit.any (fun c => c.isDigit) && decide (lit.count '.' ≤ 1)) = true := by
    simp only [Bool.and_eq_true, List.all_eq_true, List.any_eq_true, decide_eq_true_eq]
    exact ⟨⟨hall, ⟨c, hc, hcd⟩⟩, hcount⟩
  simp only [parseNum, hb, if_true]

/-- Behaviour of `Tokenizer.next` when the text at the cursor is whitespace
followed by a maximal digits-and-dots run: the run is consumed and the result
depends only on whether the run parses. -/
theorem next_numrun {input ws lit rest : List Char} {i : Nat}
    (hd : input.drop i = ws ++ (lit ++ rest))
    (hws : ∀ c ∈ ws, c.isWhitespace = true)
    (hne : lit ≠ [])
    (hall : ∀ c ∈ lit, numChar c = true)
    (hrest : ∀ c, rest.head? = some c → numChar c = false) :
    Tokenizer.next ⟨input, i⟩ =
      (match parseNum lit with
       | none => (none, ⟨input, i + ws.length + lit.length⟩)
       | some num =>
         (some ⟨.Number num, i + ws.length, i + ws.length + lit.length, lit⟩,
          ⟨input, i + ws.length + lit.length⟩)) := by
  obtain ⟨c0, lit', rfl⟩ : ∃ c0 lit', lit = c0 :: lit' := by
    cases lit with
    | nil => exact absurd rfl hne
    | cons a l => exact ⟨a, l, rfl⟩
  have hc0 : numChar c0 = true := hall c0 (List.mem_cons_self _ _)
  have hskip : Tokenizer.skipWs ⟨input, i⟩ = ⟨input, i + ws.length⟩ :=
    skipWs_of_split hd hws (fun c hc => by
      simp only [List.cons_append, List.head?_cons, Option.some.injEq] at hc
      subst hc
      exact numChar_not_ws hc0)
  have hdrop2 : input.drop (i + ws.length) = (c0 :: lit') ++ rest := drop_of_drop_append hd
  have hget : input[i + ws.length]? = some c0 := by
    rw [getElem?_eq_head_drop, hdrop2]; rfl
  have hrun : (input.drop (i + ws.length)).takeWhile numChar = c0 :: lit' := by
    rw [hdrop2]; exact takeWhile_all_append hall hrest
  have hslice :
      listSlice input (i + ws.length) (i + ws.length + (c0 :: lit').length) = c0 :: lit' := by
    simp only [listSlice, Nat.add_sub_cancel_left]
    rw [hdrop2]
    exact List.take_left _ _
  simp only [Tokenizer.next, hskip, hget, hc0, hrun, hslice, if_true]

/-- Behaviour of `Tokenizer.next` when the text at the cursor is whitespace
followed by an operator's display text (for `*`, not followed by another `*`
unless the operator is `**`). -/
theorem next_op {input ws rest : List Char} {i : Nat} {o : OperatorType}
    (hd : input.drop i = ws ++ (opText o ++ rest))
    (hws : ∀ c ∈ ws, c.isWhitespace = true)
    (hstar : o = .Multiply → rest.head? ≠ some '*') :
    Tokenizer.next ⟨input, i⟩ =
      (some ⟨.Operator o, i + ws.length, i + ws.length + (opText o).length, opText o⟩,
       ⟨input, i + ws.length + (opText o).length⟩) := by
  cases o with
  | Add =>
    have hskip : Tokenizer.skipWs ⟨input, i⟩ = ⟨input, i + ws.length⟩ :=
      skipWs_of_split hd hws (fun c hc => by
        simp only [opText, List.cons_append, List.head?_cons, Option.some.injEq] at hc
        subst hc; decide)
    have hdrop2 : input.drop (i + ws.length) = '+' :: rest := drop_of_drop_append hd
    have hget : input[i + ws.length]? = some '+' := by
      rw [getElem?_eq_head_drop, hdrop2]; rfl
    have hslice : listSlice input (i + ws.length) (i + ws.length + 1) = ['+'] := by
      simp only [listSlice, Nat.add_sub_cancel_left]
      rw [hdrop2]; rfl
    simp [Tokenizer.next, hskip, hget, hslice, opText, numChar]
  | Subtract =>
    have hskip : Tokenizer.skipWs ⟨input, i⟩ = ⟨input, i + ws.length⟩ :=
      skipWs_of_split hd hws (fun c hc => by
        simp only [opText, List.cons_append, List.head?_cons, Option.some.injEq] at hc
        subst hc; decide)
    have hdrop2 : input.drop (i + ws.length) = '-' :: rest := drop_of_drop_append hd
    have hget : input[i + ws.length]? = some '-' := by
      rw [getElem?_eq_head_drop, hdrop2]; rfl
    have hslice : listSlice input (i + ws.length) (i + ws.length + 1) = ['-'] := by
      simp only [listSlice, Nat.add_sub_cancel_left]
      rw [hdrop2]; rfl
    simp [Tokenizer.next, hskip, hget, hslice, opText, numChar]
  | Divide =>
    have hskip : Tokenizer.skipWs ⟨input, i⟩ = ⟨input, i + ws.length⟩ :=
      skipWs_of_split hd hws (fun c hc => by
        simp only [opText, List.cons_append, List.head?_cons, Option.some.injEq] at hc
        subst hc; decide)
    have hdrop2 : input.drop (i + ws.length) = '/' :: rest := drop_of_drop_append hd
    have hget : input[i + ws.length]? = some '/' := by
      rw [getElem?_eq_head_drop, hdrop2]; rfl
    have hslice : listSlice input (i + ws.length) (i + ws.length + 1) = ['/'] := by
      simp only [listSlice, Nat.add_sub_cancel_left]
      rw [hdrop2]; rfl
    simp [Tokenizer.next, hskip, hget, hslice, opText, numChar]
  | Multiply =>
    have hskip : Tokenizer.skipWs ⟨input, i⟩ = ⟨input, i + ws.length⟩ :=
      skipWs_of_split hd hws (fun c hc => by
        simp only [opText, List.cons_append, List.head?_cons, Option.some.injEq] at hc
        subst hc; decide)
    have hdrop2 : input.drop (i + ws.length) = '*' :: rest := drop_of_drop_append hd
    have hget : input[i + ws.length]? = some '*' := by
      rw [getElem?_eq_head_drop, hdrop2]; rfl
    have hpeek : (Tokenizer.peek ⟨input, i + ws.length⟩ == some '*') = false := by
      have h1 : input[i + ws.length + 1]? = rest.head? := by
        rw [getElem?_eq_head_drop]
        have : input.drop (i + ws.length + 1) = rest := by
          calc input.drop (i + ws.length + 1)
              = (input.drop (i + ws.length)).drop 1 := by rw [List.drop_drop, Nat.add_comm]
            _ = rest := by rw [hdrop2]; rfl
        rw [this]
      simp only [Tokenizer.peek, h1]
      exact beq_eq_false_iff_ne.mpr (hstar rfl)
    have hslice : listSlice input (i + ws.length) (i + ws.length + 1) = ['*'] := by
      simp only [listSlice, Nat.add_sub_cancel_left]
      rw [hdrop2]; rfl
    simp [Tokenizer.next, hskip, hget, hpeek, hslice, opText, numChar]
  | Power =>
    have hskip : Tokenizer.skipWs ⟨input, i⟩ = ⟨input, i + ws.length⟩ :=
      skipWs_of_split hd hws (fun c hc => by
        simp only [opText, List.cons_append, List.head?_cons, Option.some.injEq] at hc
        subst hc; decide)
    have hdrop2 : input.drop (i + ws.length) = '*' :: '*' :: rest := drop_of_drop_append hd
    have hget : input[i + ws.length]? = some '*' := by
      rw [getElem?_eq_head_drop, hdrop2]; rfl
    have hpeek : (Tokenizer.peek ⟨input, i + ws.length⟩ == some '*') = true := by
      have h1 : input[i + ws.length + 1]? = some '*' := by
        rw [getElem?_eq_head_drop]
        have : input.drop (i + ws.length + 1) = '*' :: rest := by
          calc input.drop (i + ws.length + 1)
              = (input.drop (i + ws.length)).drop 1 := by rw [List.drop_drop, Nat.add_comm]
            _ = '*' :: rest := by rw [hdrop2]; rfl
        rw [this]; rfl
      simp [Tokenizer.peek, h1]
    have hslice : listSlice input (i + ws.length) (i + ws.length + 2) = ['*', '*'] := by
      simp only [listSlice, Nat.add_sub_cancel_left]
      rw [hdrop2]; rfl
    simp [Tokenizer.next, hskip, hget, hpeek, hslice, opText, numChar]

/-- Behaviour of `Tokenizer.next` when only whitespace remains: `none`, with
the cursor at the end of the line. -/
theorem next_eof_ws {input ws : List Char} {i : Nat}
    (hd : input.drop i = ws)
    (hws : ∀ c ∈ ws, c.isWhitespace = true) :
    Tokenizer.next ⟨input, i⟩ = (none, ⟨input, i + ws.length⟩) := by
  have hd' : input.drop i = ws ++ [] := by rw [hd, List.append_nil]
  have hskip : Tokenizer.skipWs ⟨input, i⟩ = ⟨input, i + ws.length⟩ :=
    skipWs_of_split hd' hws (by simp)
  have hdrop2 : input.drop (i + ws.length) = [] := drop_of_drop_append hd'
  have hget : input[i + ws.length]? = none := by rw [getElem?_eq_head_drop, hdrop2]; rfl
  simp only [Tokenizer.next, hskip, hget]

/-! ### Structural facts about `Tokenizer.next` -/

theorem skipWs_input (t : Tokenizer) : (t.skipWs).input = t.input := rfl

theorem skipWs_index_le (t : Tokenizer) : t.index ≤ (t.skipWs).index := Nat.le_add_right _ _

/-- `next` never touches the input line. -/
theorem next_input_eq (t : Tokenizer) : (t.next).2.input = t.input := by
  simp only [Tokenizer.next]
  split
  · rfl
  split
  · split <;> rfl
  · split <;> rfl

/-- `next` never moves the cursor backwards. -/
theorem next_index_le (t : Tokenizer) : t.index ≤ (t.next).2.index := by
  have hle := skipWs_index_le t
  simp only [Tokenizer.next]
  split
  · exact hle
  case _ ch heq =>
    split
    · split
      · exact le_trans hle (Nat.le_add_right _ _)
      · exact le_trans hle (Nat.le_add_right _ _)
    · split
      · exact hle
      · exact le_trans hle (Nat.le_add_right _ _)

/-- A successful `next` strictly advances the cursor and keeps it within the
line. -/
theorem next_some_bounds {t t' : Tokenizer} {tok : Token}
    (h : t.next = (some tok, t')) :
    t.index < t'.index ∧ t'.index ≤ t.input.length := by
  have hle := skipWs_index_le t
  simp only [Tokenizer.next] at h
  split at h
  · simp at h
  case _ ch heq =>
    have hidx : (t.skipWs).index < t.input.length := by
      have := (List.getElem?_eq_some.mp heq).1
      rwa [skipWs_input] at this
    split at h
    case isTrue hnc =>
      have hrun1 : 1 ≤ (((t.skipWs).input.drop (t.skipWs).index).takeWhile numChar).length := by
        obtain ⟨tl, htl⟩ : ∃ tl, (t.skipWs).input.drop (t.skipWs).index = ch :: tl := by
          have hh : ((t.skipWs).input.drop (t.skipWs).index).head? = some ch := by
            rw [← getElem?_eq_head_drop]; exact heq
          cases hdl : (t.skipWs).input.drop (t.skipWs).index with
          | nil => rw [hdl] at hh; simp at hh
          | cons x xs =>
            rw [hdl] at hh
            simp only [List.head?_cons, Option.some.injEq] at hh
            exact ⟨xs, by rw [hh]⟩
        rw [htl]
        simp [List.takeWhile_cons_of_pos hnc]
      have hrunle : (((t.skipWs).input.drop (t.skipWs).index).takeWhile numChar).length ≤
          t.input.length - (t.skipWs).index := by
        calc (((t.skipWs).input.drop (t.skipWs).index).takeWhile numChar).length
            ≤ ((t.skipWs).input.drop (t.skipWs).index).length := length_takeWhile_le _ _
          _ = t.input.length - (t.skipWs).index := by rw [skipWs_input, List.length_drop]
      split at h
      · simp at h
      · simp only [Prod.mk.injEq, Option.some.injEq] at h
        obtain ⟨-, rfl⟩ := h
        simp only [skipWs_input] at hrun1 hrunle ⊢
        refine ⟨by omega, by omega⟩
    case isFalse hnc =>
      split at h
      · simp at h
      case _ tt w heq2 =>
        simp only [Prod.mk.injEq, Option.some.injEq] at h
        obtain ⟨-, rfl⟩ := h
        have hw : 1 ≤ w ∧ (t.skipWs).index + w ≤ t.input.length := by
          split at heq2
          · -- '+'
            simp only [Option.some.injEq, Prod.mk.injEq] at heq2
            obtain ⟨-, rfl⟩ := heq2
            omega
          · -- '-'
            simp only [Option.some.injEq, Prod.mk.injEq] at heq2
            obtain ⟨-, rfl⟩ := heq2
            omega
          · -- '*'
            split at heq2
            case isTrue hpk =>
              simp only [Option.some.injEq, Prod.mk.injEq] at heq2
              obtain ⟨-, rfl⟩ := heq2
              have : (t.skipWs).index + 1 < t.input.length := by
                have hpk' : (t.skipWs).peek = some '*' := by simpa using hpk
                simp only [Tokenizer.peek] at hpk'
                have := (List.getElem?_eq_some.mp hpk').1
                rwa [skipWs_input] at this
              omega
            case isFalse hpk =>
              simp only [Option.some.injEq, Prod.mk.injEq] at heq2
              obtain ⟨-, rfl⟩ := heq2
              omega
          · -- '/'
            simp only [Option.some.injEq, Prod.mk.injEq] at heq2
            obtain ⟨-, rfl⟩ := heq2
            omega
          · -- catch-all: none = some, impossible
            simp at heq2
        have hz : (⟨(t.skipWs).input, (t.skipWs).index + w⟩ : Tokenizer).index =
            (t.skipWs).index + w := rfl
        rw [hz]
        exact ⟨by omega, by omega⟩

/-- Once the cursor is at or past the end of the line, `next` returns `none`
and does not move: end-of-input is absorbing. -/
theorem next_none_at_eof {t : Tokenizer} (h : t.input.length ≤ t.index) :
    t.next = (none, t) := by
  have hsk : t.skipWs = t := by
    have : t.input.drop t.index = [] := List.drop_eq_nil_of_le h
    simp only [Tokenizer.skipWs, this, List.takeWhile_nil, List.length_nil, Nat.add_zero]
  have hget : t.input[t.index]? = none := by
    rw [getElem?_eq_head_drop, List.drop_eq_nil_of_le h]
    rfl
  simp only [Tokenizer.next, hsk, hget]

/-! ### Peekable facts -/

/-- Peeking reports exactly what the next `next` call would return. -/
theorem peek_fst (p : Parser) : (p.peek).1 = (p.next).1 := by
  cases hp : p.peeked with
  | some o => simp [Parser.peek, Parser.next, hp]
  | none =>
    rcases hx : p.tokenizer.next with ⟨o, t'⟩
    simp [Parser.peek, Parser.next, hp, hx]

/-- Filling the lookahead buffer does not change the observable behaviour of
the next `next` call (result nor successor state). -/
theorem peek_next_eq (p : Parser) : ((p.peek).2).next = p.next := by
  cases hp : p.peeked with
  | some o => simp [Parser.peek, Parser.next, hp]
  | none =>
    rcases hx : p.tokenizer.next with ⟨o, t'⟩
    simp [Parser.peek, Parser.next, hp, hx]

theorem accept_of_next_some_true {p p' : Parser} {tok : Token} {check : TokenType → Bool}
    (h : p.next = (some tok, p')) (hc : check tok.type_ = true) :
    p.accept check = (some tok, p') := by
  have h1 : (p.peek).1 = some tok := by rw [peek_fst, h]
  have h2 : ((p.peek).2).next = (some tok, p') := by rw [peek_next_eq, h]
  simp only [Parser.accept]
  rcases hpk : p.peek with ⟨o, p1⟩
  rw [hpk] at h1 h2
  simp only at h1 h2
  subst h1
  simp [hc, h2]

theorem accept_of_next_some_false {p p' : Parser} {tok : Token} {check : TokenType → Bool}
    (h : p.next = (some tok, p')) (hc : check tok.type_ = false) :
    p.accept check = (none, (p.peek).2) := by
  have h1 : (p.peek).1 = some tok := by rw [peek_fst, h]
  simp only [Parser.accept]
  rcases hpk : p.peek with ⟨o, p1⟩
  rw [hpk] at h1
  simp only at h1
  subst h1
  simp [hc]

theorem accept_of_next_none {p p' : Parser} {check : TokenType → Bool}
    (h : p.next = (none, p')) :
    p.accept check = (none, (p.peek).2) := by
  have h1 : (p.peek).1 = none := by rw [peek_fst, h]
  simp only [Parser.accept]
  rcases hpk : p.peek with ⟨o, p1⟩
  rw [hpk] at h1
  simp only at h1
  subst h1
  simp

/-- A consumed token strictly shrinks the remaining-stream measure. -/
theorem next_some_size {p p' : Parser} {tok : Token} (h : p.next = (some tok, p')) :
    p'.size < p.size := by
  cases hp : p.peeked with
  | some o =>
    simp only [Parser.next, hp] at h
    obtain ⟨rfl, rfl⟩ : o = some tok ∧ (⟨none, p.tokenizer⟩ : Parser) = p' := by
      simpa using h
    simp [Parser.size, hp]
  | none =>
    rcases hx : p.tokenizer.next with ⟨o, t'⟩
    simp only [Parser.next, hp, hx] at h
    obtain ⟨rfl, rfl⟩ : o = some tok ∧ (⟨none, t'⟩ : Parser) = p' := by
      simpa using h
    have hb := next_some_bounds hx
    have hin : t'.input = p.tokenizer.input := by
      have := next_input_eq p.tokenizer
      rwa [hx] at this
    simp only [Parser.size, hp, hin]
    omega

/-- Peeking never grows the remaining-stream measure. -/
theorem peek_size_le (p : Parser) : ((p.peek).2).size ≤ p.size := by
  cases hp : p.peeked with
  | some o => simp [Parser.peek, hp]
  | none =>
    rcases hx : p.tokenizer.next with ⟨o, t'⟩
    have hin : t'.input = p.tokenizer.input := by
      have := next_input_eq p.tokenizer
      rwa [hx] at this
    simp only [Parser.peek, hp, hx]
    cases o with
    | none =>
      have hle := next_index_le p.tokenizer
      rw [hx] at hle
      have hle2 : p.tokenizer.index ≤ t'.index := hle
      simp only [Parser.size, hp, hin]
      omega
    | some tok =>
      have hb := next_some_bounds hx
      simp only [Parser.size, hp, hin]
      omega

/-! ### Parsing a known token stream -/

theorem yieldsT_cons_inv {p : Parser} {ty : TokenType} {tys : List TokenType}
    (h : p.YieldsT (ty :: tys)) :
    ∃ tok p', p.next = (some tok, p') ∧ tok.type_ = ty ∧ p'.YieldsT tys := by
  cases h with
  | cons h1 h2 => exact ⟨_, _, h1, rfl, h2⟩

theorem yieldsT_nil_inv {p : Parser} (h : p.YieldsT []) :
    ∃ p', p.next = (none, p') := by
  cases h with
  | nil h1 => exact ⟨_, h1⟩

theorem yieldsT_peek {p : Parser} {tys : List TokenType} (h : p.YieldsT tys) :
    ((p.peek).2).YieldsT tys := by
  cases h with
  | nil h1 => exact .nil (by rw [peek_next_eq]; exact h1)
  | cons h1 h2 => exact .cons (by rw [peek_next_eq]; exact h1) h2

theorem yieldsT_size {p : Parser} {tys : List TokenType} (h : p.YieldsT tys) :
    tys.length ≤ p.size := by
  induction h with
  | nil _ => simp
  | cons h1 _ ih =>
    have := next_some_size h1
    simp only [List.length_cons]
    omega

theorem accept_yields_pos (check : TokenType → Bool) {p : Parser} {ty : TokenType}
    {tys : List TokenType}
    (h : p.YieldsT (ty :: tys)) (hc : check ty = true) :
    ∃ tok p', p.accept check = (some tok, p') ∧ tok.type_ = ty ∧ p'.YieldsT tys := by
  obtain ⟨tok, p', h1, rfl, h2⟩ := yieldsT_cons_inv h
  exact ⟨tok, p', accept_of_next_some_true h1 hc, rfl, h2⟩

theorem accept_yields_neg {p : Parser} {ty : TokenType} {tys : List TokenType}
    {check : TokenType → Bool}
    (h : p.YieldsT (ty :: tys)) (hc : check ty = false) :
    p.accept check = (none, (p.peek).2) ∧ ((p.peek).2).YieldsT (ty :: tys) := by
  obtain ⟨tok, p', h1, htok, h2⟩ := yieldsT_cons_inv h
  refine ⟨accept_of_next_some_false h1 (htok ▸ hc), yieldsT_peek ?_⟩
  exact htok ▸ Parser.YieldsT.cons h1 h2

theorem accept_yields_nil {p : Parser} (check : TokenType → Bool) (h : p.YieldsT []) :
    p.accept check = (none, (p.peek).2) ∧ ((p.peek).2).YieldsT [] := by
  obtain ⟨p', h1⟩ := yieldsT_nil_inv h
  exact ⟨accept_of_next_none h1, yieldsT_peek h⟩

theorem factor_yields_num {p : Parser} {n : ℚ} {tys : List TokenType}
    (h : p.YieldsT (.Number n :: tys)) :
    ∃ p', p.factor = .ok (n, p') ∧ p'.YieldsT tys := by
  obtain ⟨tok, p', h1, htok, h2⟩ := yieldsT_cons_inv h
  refine ⟨p', ?_, h2⟩
  simp only [Parser.factor, h1, htok]

theorem factor_yields_op {p : Parser} {op : OperatorType} {tys : List TokenType}
    (h : p.YieldsT (.Operator op :: tys)) :
    p.factor = .error ("expected number, got " ++ TokenType.display (.Operator op)) := by
  obtain ⟨tok, p', h1, htok, h2⟩ := yieldsT_cons_inv h
  simp only [Parser.factor, h1, htok]

theorem factor_yields_nil {p : Parser} (h : p.YieldsT []) :
    p.factor = .error "unexpected end of input" := by
  obtain ⟨p', h1⟩ := yieldsT_nil_inv h
  simp only [Parser.factor, h1]

/-! ### The three grammar loops on streams of the grammar's shape -/

theorem powChainT_length (es : List ℚ) : (powChainT es).length = 2 * es.length := by
  induction es with
  | nil => rfl
  | cons e es ih =>
    simp only [powChainT, List.foldr_cons, List.length_cons] at *
    omega

theorem mulChainT_length (ms : List MulData) : ms.length ≤ (mulChainT ms).length := by
  induction ms with
  | nil => simp [mulChainT]
  | cons m ms ih =>
    simp only [mulChainT, List.foldr_cons, List.length_cons, List.length_append] at *
    omega

theorem addChainT_length (xs : List (OperatorType × TermData)) :
    xs.length ≤ (addChainT xs).length := by
  induction xs with
  | nil => simp [addChainT]
  | cons x xs ih =>
    simp only [addChainT, List.foldr_cons, List.length_cons, List.length_append] at *
    omega

/-- Exponent-tier loop: on a `(** NUMBER)*` chain followed by a stream whose
head is not `**`, `expoLoop` folds `powf` from the left over the chain and
leaves the follow-up stream. -/
theorem expoLoop_yields :
    ∀ (es : List ℚ) (fuel : Nat) (b : ℚ) (p : Parser) (rest : List TokenType),
    p.YieldsT (powChainT es ++ rest) →
    (∀ ty, rest.head? = some ty → powCheck ty = false) →
    es.length < fuel →
    ∃ p', Parser.expoLoop fuel b p = .ok (es.foldl powf b, p') ∧ p'.YieldsT rest := by
  intro es
  induction es with
  | nil =>
    intro fuel b p rest hy hrest hfuel
    cases fuel with
    | zero => exact absurd hfuel (by omega)
    | succ fuel =>
      have hy' : p.YieldsT rest := by simpa [powChainT] using hy
      have hacc : p.accept powCheck = (none, (p.peek).2) ∧ ((p.peek).2).YieldsT rest := by
        cases rest with
        | nil => exact accept_yields_nil _ hy'
        | cons ty tys => exact accept_yields_neg hy' (hrest ty rfl)
      obtain ⟨ha, hy2⟩ := hacc
      refine ⟨(p.peek).2, ?_, hy2⟩
      simp only [Parser.expoLoop, ha, List.foldl_nil]
  | cons e es' ih =>
    intro fuel b p rest hy hrest hfuel
    cases fuel with
    | zero => exact absurd hfuel (by omega)
    | succ fuel =>
      have hy' : p.YieldsT
          (.Operator .Power :: (.Number e :: (powChainT es' ++ rest))) := by
        simpa [powChainT] using hy
      obtain ⟨op, p1, ha, htok, hy1⟩ := accept_yields_pos powCheck hy' rfl
      obtain ⟨p2, hf, hy2⟩ := factor_yields_num hy1
      obtain ⟨p', hloop, hy3⟩ :=
        ih fuel (powf b e) p2 rest hy2 hrest (by simp at hfuel; omega)
      refine ⟨p', ?_, hy3⟩
      simp only [Parser.expoLoop, ha, hf, htok, hloop, List.foldl_cons]

/-- `expo` on an exponent tier followed by a stream whose head is not `**`. -/
theorem expo_yields {p : Parser} {b : ℚ} {es : List ℚ} {rest : List TokenType}
    (hy : p.YieldsT (expoT b es ++ rest))
    (hrest : ∀ ty, rest.head? = some ty → powCheck ty = false) :
    ∃ p', p.expo = .ok (expoVal b es, p') ∧ p'.YieldsT rest := by
  have hy' : p.YieldsT (.Number b :: (powChainT es ++ rest)) := by
    simpa [expoT] using hy
  obtain ⟨p1, hf, hy1⟩ := factor_yields_num hy'
  have hlen : es.length < p1.size + 1 := by
    have h1 := yieldsT_size hy1
    have h2 := powChainT_length es
    rw [List.length_append] at h1
    omega
  obtain ⟨p', hloop, hy2⟩ := expoLoop_yields es (p1.size + 1) b p1 rest hy1 hrest hlen
  refine ⟨p', ?_, hy2⟩
  simp only [Parser.expo, hf, hloop, expoVal]

theorem head_powCheck_mulChain {ms : List MulData} {rest : List TokenType}
    (hv : MDValid ms)
    (hrest : ∀ ty, rest.head? = some ty → powCheck ty = false) :
    ∀ ty, (mulChainT ms ++ rest).head? = some ty → powCheck ty = false := by
  intro ty hty
  cases ms with
  | nil => exact hrest ty (by simpa [mulChainT] using hty)
  | cons m ms' =>
    have hty' : ty = .Operator m.1 := by
      simp only [mulChainT, List.foldr_cons, List.cons_append, List.head?_cons,
        Option.some.injEq] at hty
      exact hty.symm
    subst hty'
    rcases hv m (List.mem_cons_self _ _) with h | h <;> rw [h] <;> rfl

/-- Term-tier loop: on a `((* | /) exponent)*` chain followed by a stream
whose head is none of `**`, `*`, `/`, `termLoop` folds multiplication and
division from the left and leaves the follow-up stream. -/
theorem termLoop_yields :
    ∀ (ms : List MulData) (fuel : Nat) (acc : ℚ) (p : Parser) (rest : List TokenType),
    p.YieldsT (mulChainT ms ++ rest) →
    MDValid ms →
    (∀ ty, rest.head? = some ty → powCheck ty = false ∧ mdCheck ty = false) →
    ms.length < fuel →
    ∃ p', Parser.termLoop fuel acc p = .ok (ms.foldl mdStep acc, p') ∧ p'.YieldsT rest := by
  intro ms
  induction ms with
  | nil =>
    intro fuel acc p rest hy hv hrest hfuel
    cases fuel with
    | zero => exact absurd hfuel (by omega)
    | succ fuel =>
      have hy' : p.YieldsT rest := by simpa [mulChainT] using hy
      have hacc : p.accept mdCheck = (none, (p.peek).2) ∧ ((p.peek).2).YieldsT rest := by
        cases rest with
        | nil => exact accept_yields_nil _ hy'
        | cons ty tys => exact accept_yields_neg hy' (hrest ty rfl).2
      obtain ⟨ha, hy2⟩ := hacc
      refine ⟨(p.peek).2, ?_, hy2⟩
      simp only [Parser.termLoop, ha, List.foldl_nil]
  | cons m ms' ih =>
    intro fuel acc p rest hy hv hrest hfuel
    cases fuel with
    | zero => exact absurd hfuel (by omega)
    | succ fuel =>
      rcases m with ⟨o, b, es⟩
      have ho : o = OperatorType.Multiply ∨ o = OperatorType.Divide :=
        hv _ (List.mem_cons_self _ _)
      have hcheck : mdCheck (.Operator o) = true := by
        rcases ho with rfl | rfl <;> rfl
      have hy' : p.YieldsT
          (.Operator o :: (expoT b es ++ (mulChainT ms' ++ rest))) := by
        simpa [mulChainT, List.append_assoc] using hy
      obtain ⟨op, p1, ha, htok, hy1⟩ := accept_yields_pos mdCheck hy' hcheck
      have hv' : MDValid ms' := fun x hx => hv x (List.mem_cons_of_mem _ hx)
      have hrest1 : ∀ ty, (mulChainT ms' ++ rest).head? = some ty → powCheck ty = false :=
        head_powCheck_mulChain hv' (fun ty hty => (hrest ty hty).1)
      obtain ⟨p2, he, hy2⟩ := expo_yields hy1 hrest1
      obtain ⟨p', hloop, hy3⟩ :=
        ih fuel (mdStep acc (o, b, es)) p2 rest hy2 hv' hrest (by simp at hfuel; omega)
      refine ⟨p', ?_, hy3⟩
      rcases ho with rfl | rfl <;>
        simp only [Parser.termLoop, ha, he, htok, mdStep, hloop, List.foldl_cons] <;>
        simp [mdStep] at hloop ⊢ <;> rw [hloop]

/-- `term` on a term tier followed by a stream whose head is none of `**`,
`*`, `/`. -/
theorem term_yields {p : Parser} {d : TermData} {rest : List TokenType}
    (hy : p.YieldsT (termTokensD d ++ rest))
    (hv : TermDValid d)
    (hrest : ∀ ty, rest.head? = some ty → powCheck ty = false ∧ mdCheck ty = false) :
    ∃ p', p.term = .ok (termValD d, p') ∧ p'.YieldsT rest := by
  rcases d with ⟨b, es, ms⟩
  have hy' : p.YieldsT (expoT b es ++ (mulChainT ms ++ rest)) := by
    simpa [termTokensD, List.append_assoc] using hy
  have hrest1 : ∀ ty, (mulChainT ms ++ rest).head? = some ty → powCheck ty = false :=
    head_powCheck_mulChain hv (fun ty hty => (hrest ty hty).1)
  obtain ⟨p1, he, hy1⟩ := expo_yields hy' hrest1
  have hlen : ms.length < p1.size + 1 := by
    have h1 := yieldsT_size hy1
    have h2 := mulChainT_length ms
    rw [List.length_append] at h1
    omega
  obtain ⟨p', hloop, hy2⟩ :=
    termLoop_yields ms (p1.size + 1) (expoVal b es) p1 rest hy1 hv hrest hlen
  refine ⟨p', ?_, hy2⟩
  simp only [Parser.term, he, hloop, termValD]

theorem head_checks_addChain {xs : List (OperatorType × TermData)} {rest : List TokenType}
    (hv : ASValid xs)
    (hrest : ∀ ty, rest.head? = some ty → powCheck ty = false ∧ mdCheck ty = false) :
    ∀ ty, (addChainT xs ++ rest).head? = some ty →
      powCheck ty = false ∧ mdCheck ty = false := by
  intro ty hty
  cases xs with
  | nil => exact hrest ty (by simpa [addChainT] using hty)
  | cons x xs' =>
    have hty' : ty = .Operator x.1 := by
      simp only [addChainT, List.foldr_cons, List.cons_append, List.head?_cons,
        Option.some.injEq] at hty
      exact hty.symm
    subst hty'
    rcases (hv x (List.mem_cons_self _ _)).1 with h | h <;> rw [h] <;> exact ⟨rfl, rfl⟩

/-- Expression-tier loop: on a `((+ | -) term)*` chain followed by a stream
whose head is not an operator, `exprLoop` folds addition and subtraction from
the left and leaves the follow-up stream. -/
theorem exprLoop_yields :
    ∀ (xs : List (OperatorType × TermData)) (fuel : Nat) (acc : ℚ) (p : Parser)
      (rest : List TokenType),
    p.YieldsT (addChainT xs ++ rest) →
    ASValid xs →
    (∀ ty, rest.head? = some ty →
      powCheck ty = false ∧ mdCheck ty = false ∧ asCheck ty = false) →
    xs.length < fuel →
    ∃ p', Parser.exprLoop fuel acc p = .ok (xs.foldl asStep acc, p') ∧ p'.YieldsT rest := by
  intro xs
  induction xs with
  | nil =>
    intro fuel acc p rest hy hv hrest hfuel
    cases fuel with
    | zero => exact absurd hfuel (by omega)
    | succ fuel =>
      have hy' : p.YieldsT rest := by simpa [addChainT] using hy
      have hacc : p.accept asCheck = (none, (p.peek).2) ∧ ((p.peek).2).YieldsT rest := by
        cases rest with
        | nil => exact accept_yields_nil _ hy'
        | cons ty tys => exact accept_yields_neg hy' (hrest ty rfl).2.2
      obtain ⟨ha, hy2⟩ := hacc
      refine ⟨(p.peek).2, ?_, hy2⟩
      simp only [Parser.exprLoop, ha, List.foldl_nil]
  | cons x xs' ih =>
    intro fuel acc p rest hy hv hrest hfuel
    cases fuel with
    | zero => exact absurd hfuel (by omega)
    | succ fuel =>
      rcases x with ⟨o, d⟩
      have ho : o = OperatorType.Add ∨ o = OperatorType.Subtract :=
        (hv _ (List.mem_cons_self _ _)).1
      have hvd : TermDValid d := (hv _ (List.mem_cons_self _ _)).2
      have hcheck : asCheck (.Operator o) = true := by
        rcases ho with rfl | rfl <;> rfl
      have hy' : p.YieldsT
          (.Operator o :: (termTokensD d ++ (addChainT xs' ++ rest))) := by
        simpa [addChainT, List.append_assoc] using hy
      obtain ⟨op, p1, ha, htok, hy1⟩ := accept_yields_pos asCheck hy' hcheck
      have hv' : ASValid xs' := fun y hy => hv y (List.mem_cons_of_mem _ hy)
      have hrest1 : ∀ ty, (addChainT xs' ++ rest).head? = some ty →
          powCheck ty = false ∧ mdCheck ty = false :=
        head_checks_addChain hv' (fun ty hty => ⟨(hrest ty hty).1, (hrest ty hty).2.1⟩)
      obtain ⟨p2, ht, hy2⟩ := term_yields hy1 hvd hrest1
      obtain ⟨p', hloop, hy3⟩ :=
        ih fuel (asStep acc (o, d)) p2 rest hy2 hv' hrest (by simp at hfuel; omega)
      refine ⟨p', ?_, hy3⟩
      rcases ho with rfl | rfl <;>
        simp only [Parser.exprLoop, ha, ht, htok, asStep, hloop, List.foldl_cons] <;>
        simp [asStep] at hloop ⊢ <;> rw [hloop]

/-- `expression` on a full grammar-shaped stream followed by a stream whose
head is not an operator. -/
theorem expression_yields {p : Parser} {d : TermData} {xs : List (OperatorType × TermData)}
    {rest : List TokenType}
    (hy : p.YieldsT (exprT d xs ++ rest))
    (hvd : TermDValid d) (hvx : ASValid xs)
    (hrest : ∀ ty, rest.head? = some ty →
      powCheck ty = false ∧ mdCheck ty = false ∧ asCheck ty = false) :
    ∃ p', p.expression = .ok (exprVal d xs, p') ∧ p'.YieldsT rest := by
  have hy' : p.YieldsT (termTokensD d ++ (addChainT xs ++ rest)) := by
    simpa [exprT, List.append_assoc] using hy
  have hrest1 : ∀ ty, (addChainT xs ++ rest).head? = some ty →
      powCheck ty = false ∧ mdCheck ty = false :=
    head_checks_addChain hvx (fun ty hty => ⟨(hrest ty hty).1, (hrest ty hty).2.1⟩)
  obtain ⟨p1, ht, hy1⟩ := term_yields hy' hvd hrest1
  have hlen : xs.length < p1.size + 1 := by
    have h1 := yieldsT_size hy1
    have h2 := addChainT_length xs
    rw [List.length_append] at h1
    omega
  obtain ⟨p', hloop, hy2⟩ :=
    exprLoop_yields xs (p1.size + 1) (termValD d) p1 rest hy1 hvx hrest hlen
  refine ⟨p', ?_, hy2⟩
  simp only [Parser.expression, ht, hloop, exprVal]

/-! ### From grammar-shaped source text to token streams -/

theorem steps_append {t t' t'' : Tokenizer} {ts ts' : List Token}
    (h1 : Tokenizer.Steps t ts t') (h2 : Tokenizer.Steps t' ts' t'') :
    Tokenizer.Steps t (ts ++ ts') t'' := by
  induction h1 with
  | nil _ => exact h2
  | cons hs h1' ih => exact .cons hs (ih h2)

theorem steps_tyields {t t' : Tokenizer} {ts ts' : List Token}
    (h1 : Tokenizer.Steps t ts t') (h2 : t'.TYields ts') :
    t.TYields (ts ++ ts') := by
  induction h1 with
  | nil _ => exact h2
  | cons hs h1' ih => exact .cons hs (ih h2)

theorem parser_next_none_of_tok {t t' : Tokenizer} (h : t.next = (none, t')) :
    Parser.next ⟨none, t⟩ = (none, ⟨none, t'⟩) := by
  simp [Parser.next, h]

theorem parser_next_some_of_tok {t t' : Tokenizer} {tok : Token}
    (h : t.next = (some tok, t')) :
    Parser.next ⟨none, t⟩ = (some tok, ⟨none, t'⟩) := by
  simp [Parser.next, h]

/-- A fresh (buffer-empty) parser over a tokenizer sees exactly the
tokenizer's stream. -/
theorem yieldsT_of_tyields {t : Tokenizer} {ts : List Token}
    (h : t.TYields ts) : Parser.YieldsT ⟨none, t⟩ (ts.map Token.type_) := by
  induction h with
  | nil h1 => exact .nil (parser_next_none_of_tok h1)
  | cons h1 _ ih => exact .cons (parser_next_some_of_tok h1) ih

theorem ValidNumeral.ne_nil {s : List Char} (h : ValidNumeral s) : s ≠ [] := by
  obtain ⟨-, -, c, hc, -⟩ := h
  intro hs
  subst hs
  simp at hc

theorem head_not_num_allws (ws' : List Char) (hws : allWs ws') :
    ∀ c, ws'.head? = some c → numChar c = false := by
  intro c hc
  cases ws' with
  | nil => simp at hc
  | cons w t =>
    simp only [List.head?_cons, Option.some.injEq] at hc
    subst hc
    exact ws_not_numChar (hws _ (List.mem_cons_self _ _))

theorem opText_head_not_num (o : OperatorType) (tail : List Char) :
    ∀ c, (opText o ++ tail).head? = some c → numChar c = false := by
  intro c hc
  cases o <;> simp only [opText, List.cons_append, List.head?_cons, Option.some.injEq] at hc <;>
    subst hc <;> decide

theorem head_not_num_ws_op (ws' tail : List Char) (o : OperatorType) (hws : allWs ws') :
    ∀ c, (ws' ++ (opText o ++ tail)).head? = some c → numChar c = false := by
  intro c hc
  cases ws' with
  | nil => exact opText_head_not_num o tail c (by simpa using hc)
  | cons w t =>
    simp only [List.cons_append, List.head?_cons, Option.some.injEq] at hc
    subst hc
    exact ws_not_numChar (hws _ (List.mem_cons_self _ _))

theorem srcnum_head_not_star {n : SrcNum} (hv : n.Valid) (s : List Char) :
    ∀ c, (n.render ++ s).head? = some c → c ≠ '*' := by
  obtain ⟨hws, hvn⟩ := hv
  intro c hc
  cases hw : n.ws with
  | nil =>
    obtain ⟨c0, lit', hlit⟩ : ∃ c0 l, n.lit = c0 :: l := by
      cases hl : n.lit with
      | nil => exact absurd hl hvn.ne_nil
      | cons a l => exact ⟨a, l, rfl⟩
    rw [SrcNum.render, hw, hlit] at hc
    simp only [List.nil_append, List.cons_append, List.head?_cons, Option.some.injEq] at hc
    subst hc
    exact numChar_ne_star (hvn.1 c0 (by rw [hlit]; exact List.mem_cons_self _ _))
  | cons w ws' =>
    rw [SrcNum.render, hw] at hc
    simp only [List.cons_append, List.head?_cons, Option.some.injEq] at hc
    subst hc
    exact ws_ne_star (hws _ (by rw [hw]; exact List.mem_cons_self _ _))

theorem srcexpo_head_not_star {e : SrcExpo} (hv : e.Valid) (s : List Char) :
    ∀ c, (e.render ++ s).head? = some c → c ≠ '*' := by
  have heq : e.render ++ s = e.head.render ++ (expoRestRender e.rest ++ s) := by
    simp [SrcExpo.render, List.append_assoc]
  rw [heq]
  exact srcnum_head_not_star hv.1 _

theorem SrcNum.render_length (n : SrcNum) : n.render.length = n.ws.length + n.lit.length := by
  simp [SrcNum.render]

/-- Tokenizing one whitespace-prefixed numeral. -/
theorem steps_srcnum {input rest : List Char} {i : Nat} {n : SrcNum}
    (hv : n.Valid)
    (hd : input.drop i = n.render ++ rest)
    (hb : ∀ c, rest.head? = some c → numChar c = false) :
    ∃ tok, Tokenizer.Steps ⟨input, i⟩ [tok] ⟨input, i + n.render.length⟩ ∧
      tok.type_ = .Number n.val := by
  obtain ⟨hws, hvn⟩ := hv
  have hd' : input.drop i = n.ws ++ (n.lit ++ rest) := by
    rw [hd, SrcNum.render, List.append_assoc]
  have hnum := next_numrun hd' hws hvn.ne_nil hvn.1 hb
  simp only [parseNum_valid hvn] at hnum
  have hlen : i + n.render.length = i + n.ws.length + n.lit.length := by
    rw [SrcNum.render_length]; omega
  exact ⟨⟨.Number (numVal n.lit), i + n.ws.length, i + n.ws.length + n.lit.length, n.lit⟩,
    by rw [hlen]; exact .cons hnum (.nil _), rfl⟩

/-- Tokenizing one whitespace-prefixed operator. -/
theorem steps_srcop {input rest : List Char} {i : Nat} {ws : List Char} {o : OperatorType}
    (hws : allWs ws)
    (hd : input.drop i = ws ++ (opText o ++ rest))
    (hstar : o = .Multiply → rest.head? ≠ some '*') :
    ∃ tok, Tokenizer.Steps ⟨input, i⟩ [tok] ⟨input, i + ws.length + (opText o).length⟩ ∧
      tok.type_ = .Operator o := by
  have hop := next_op hd hws hstar
  exact ⟨⟨.Operator o, i + ws.length, i + ws.length + (opText o).length, opText o⟩,
    .cons hop (.nil _), rfl⟩

theorem head_not_num_exporest {l : List (List Char × SrcNum)} {rest : List Char}
    (hv : ∀ x ∈ l, allWs x.1 ∧ x.2.Valid)
    (hb : ∀ c, rest.head? = some c → numChar c = false) :
    ∀ c, (expoRestRender l ++ rest).head? = some c → numChar c = false := by
  intro c hc
  cases l with
  | nil => exact hb c (by simpa [expoRestRender] using hc)
  | cons y l' =>
    have heq : expoRestRender (y :: l') ++ rest =
        y.1 ++ (opText .Power ++ (y.2.render ++ (expoRestRender l' ++ rest))) := by
      simp [expoRestRender, List.append_assoc]
    rw [heq] at hc
    exact head_not_num_ws_op _ _ _ (hv y (List.mem_cons_self _ _)).1 c hc

/-- Tokenizing the `(ws ** numeral)*` continuation of an exponent tier. -/
theorem steps_exporest :
    ∀ (l : List (List Char × SrcNum)) (input rest : List Char) (i : Nat),
    (∀ x ∈ l, allWs x.1 ∧ x.2.Valid) →
    input.drop i = expoRestRender l ++ rest →
    (∀ c, rest.head? = some c → numChar c = false) →
    ∃ ts, Tokenizer.Steps ⟨input, i⟩ ts ⟨input, i + (expoRestRender l).length⟩ ∧
      ts.map Token.type_ = powChainT (l.map fun x => x.2.val) := by
  intro l
  induction l with
  | nil =>
    intro input rest i hv hd hb
    refine ⟨[], ?_, by simp [powChainT, expoRestRender]⟩
    have h0 : (expoRestRender ([] : List (List Char × SrcNum))).length = 0 := rfl
    rw [h0, Nat.add_zero]
    exact .nil _
  | cons y l' ih =>
    intro input rest i hv hd hb
    rcases y with ⟨ws1, n⟩
    have hvh := hv (ws1, n) (List.mem_cons_self _ _)
    have hv' : ∀ x ∈ l', allWs x.1 ∧ x.2.Valid := fun x hx => hv x (List.mem_cons_of_mem _ hx)
    have hd1 : input.drop i =
        ws1 ++ (opText .Power ++ (n.render ++ (expoRestRender l' ++ rest))) := by
      rw [hd]; simp [expoRestRender, List.append_assoc]
    obtain ⟨tokOp, hsOp, htyOp⟩ :=
      steps_srcop hvh.1 hd1 (fun h => OperatorType.noConfusion h)
    have hd1' : input.drop i =
        (ws1 ++ opText .Power) ++ (n.render ++ (expoRestRender l' ++ rest)) := by
      rw [hd1, List.append_assoc]
    have hd2 := drop_of_drop_append hd1'
    rw [List.length_append, ← Nat.add_assoc] at hd2
    obtain ⟨tokN, hsN, htyN⟩ := steps_srcnum hvh.2 hd2 (head_not_num_exporest hv' hb)
    have hd3 := drop_of_drop_append hd2
    obtain ⟨ts', hs', hty'⟩ := ih input rest _ hv' hd3 hb
    refine ⟨tokOp :: tokN :: ts', ?_, ?_⟩
    · have hcomb := steps_append hsOp (steps_append hsN hs')
      have hlen : i + (expoRestRender ((ws1, n) :: l')).length =
          i + ws1.length + (opText .Power).length + n.render.length +
            (expoRestRender l').length := by
        simp [expoRestRender, List.length_append, opText]
        omega
      rw [hlen]
      simpa using hcomb
    · simp only [List.map_cons, htyOp, htyN, hty', powChainT, List.foldr_cons]

theorem srcexpo_tokens_eq (e : SrcExpo) :
    expoT e.head.val e.dataEs = .Number e.head.val :: powChainT (e.rest.map fun x => x.2.val) := by
  simp [expoT, SrcExpo.dataEs]

/-- Tokenizing a whole exponent tier. -/
theorem steps_srcexpo {input rest : List Char} {i : Nat} {e : SrcExpo}
    (hv : e.Valid)
    (hd : input.drop i = e.render ++ rest)
    (hb : ∀ c, rest.head? = some c → numChar c = false) :
    ∃ ts, Tokenizer.Steps ⟨input, i⟩ ts ⟨input, i + e.render.length⟩ ∧
      ts.map Token.type_ = expoT e.head.val e.dataEs := by
  have hd1 : input.drop i = e.head.render ++ (expoRestRender e.rest ++ rest) := by
    rw [hd]; simp [SrcExpo.render, List.append_assoc]
  obtain ⟨tok1, hs1, hty1⟩ := steps_srcnum hv.1 hd1 (head_not_num_exporest hv.2 hb)
  have hd2 := drop_of_drop_append hd1
  obtain ⟨ts2, hs2, hty2⟩ := steps_exporest e.rest input rest _ hv.2 hd2 hb
  refine ⟨tok1 :: ts2, ?_, ?_⟩
  · have hcomb := steps_append hs1 hs2
    have hlen : i + e.render.length =
        i + e.head.render.length + (expoRestRender e.rest).length := by
      simp [SrcExpo.render, List.length_append]
      omega
    rw [hlen]
    simpa using hcomb
  · rw [srcexpo_tokens_eq]
    simp only [List.map_cons, hty1, hty2]

theorem head_not_num_termrest {l : List (List Char × OperatorType × SrcExpo)}
    {rest : List Char}
    (hv : ∀ x ∈ l, allWs x.1 ∧ (x.2.1 = .Multiply ∨ x.2.1 = .Divide) ∧ x.2.2.Valid)
    (hb : ∀ c, rest.head? = some c → numChar c = false) :
    ∀ c, (termRestRender l ++ rest).head? = some c → numChar c = false := by
  intro c hc
  cases l with
  | nil => exact hb c (by simpa [termRestRender] using hc)
  | cons y l' =>
    have heq : termRestRender (y :: l') ++ rest =
        y.1 ++ (opText y.2.1 ++ (y.2.2.render ++ (termRestRender l' ++ rest))) := by
      simp [termRestRender, List.append_assoc]
    rw [heq] at hc
    exact head_not_num_ws_op _ _ _ (hv y (List.mem_cons_self _ _)).1 c hc

/-- Tokenizing the `(ws (*|/) exponent)*` continuation of a term tier. -/
theorem steps_termrest :
    ∀ (l : List (List Char × OperatorType × SrcExpo)) (input rest : List Char) (i : Nat),
    (∀ x ∈ l, allWs x.1 ∧ (x.2.1 = .Multiply ∨ x.2.1 = .Divide) ∧ x.2.2.Valid) →
    input.drop i = termRestRender l ++ rest →
    (∀ c, rest.head? = some c → numChar c = false) →
    ∃ ts, Tokenizer.Steps ⟨input, i⟩ ts ⟨input, i + (termRestRender l).length⟩ ∧
      ts.map Token.type_ =
        mulChainT (l.map fun x => (x.2.1, x.2.2.head.val, x.2.2.dataEs)) := by
  intro l
  induction l with
  | nil =>
    intro input rest i hv hd hb
    refine ⟨[], ?_, by simp [mulChainT, termRestRender]⟩
    have h0 : (termRestRender ([] : List (List Char × OperatorType × SrcExpo))).length = 0 := rfl
    rw [h0, Nat.add_zero]
    exact .nil _
  | cons y l' ih =>
    intro input rest i hv hd hb
    rcases y with ⟨ws1, o, e⟩
    have hvh := hv (ws1, o, e) (List.mem_cons_self _ _)
    have hv' : ∀ x ∈ l', allWs x.1 ∧ (x.2.1 = .Multiply ∨ x.2.1 = .Divide) ∧ x.2.2.Valid :=
      fun x hx => hv x (List.mem_cons_of_mem _ hx)
    have hd1 : input.drop i =
        ws1 ++ (opText o ++ (e.render ++ (termRestRender l' ++ rest))) := by
      rw [hd]; simp [termRestRender, List.append_assoc]
    have hstar : o = .Multiply →
        (e.render ++ (termRestRender l' ++ rest)).head? ≠ some '*' :=
      fun _ h => srcexpo_head_not_star hvh.2.2 _ '*' h rfl
    obtain ⟨tokOp, hsOp, htyOp⟩ := steps_srcop hvh.1 hd1 hstar
    have hd1' : input.drop i =
        (ws1 ++ opText o) ++ (e.render ++ (termRestRender l' ++ rest)) := by
      rw [hd1, List.append_assoc]
    have hd2 := drop_of_drop_append hd1'
    rw [List.length_append, ← Nat.add_assoc] at hd2
    obtain ⟨tsE, hsE, htyE⟩ := steps_srcexpo hvh.2.2 hd2 (head_not_num_termrest hv' hb)
    have hd3 := drop_of_drop_append hd2
    obtain ⟨ts', hs', hty'⟩ := ih input rest _ hv' hd3 hb
    refine ⟨tokOp :: (tsE ++ ts'), ?_, ?_⟩
    · have hcomb := steps_append hsOp (steps_append hsE hs')
      have hlen : i + (termRestRender ((ws1, o, e) :: l')).length =
          i + ws1.length + (opText o).length + e.render.length +
            (termRestRender l').length := by
        simp [termRestRender, List.length_append]
        omega
      rw [hlen]
      simpa using hcomb
    · simp only [List.map_cons, List.map_append, htyOp, htyE, hty', mulChainT,
        List.foldr_cons, List.cons_append]

theorem termTokensD_data (t : SrcTerm) :
    termTokensD t.data = expoT t.head.head.val t.head.dataEs ++
      mulChainT (t.rest.map fun x => (x.2.1, x.2.2.head.val, x.2.2.dataEs)) := rfl

/-- Tokenizing a whole term tier. -/
theorem steps_srcterm {input rest : List Char} {i : Nat} {t : SrcTerm}
    (hv : t.Valid)
    (hd : input.drop i = t.render ++ rest)
    (hb : ∀ c, rest.head? = some c → numChar c = false) :
    ∃ ts, Tokenizer.Steps ⟨input, i⟩ ts ⟨input, i + t.render.length⟩ ∧
      ts.map Token.type_ = termTokensD t.data := by
  have hd1 : input.drop i = t.head.render ++ (termRestRender t.rest ++ rest) := by
    rw [hd]; simp [SrcTerm.render, List.append_assoc]
  obtain ⟨ts1, hs1, hty1⟩ := steps_srcexpo hv.1 hd1 (head_not_num_termrest hv.2 hb)
  have hd2 := drop_of_drop_append hd1
  obtain ⟨ts2, hs2, hty2⟩ := steps_termrest t.rest input rest _ hv.2 hd2 hb
  refine ⟨ts1 ++ ts2, ?_, ?_⟩
  · have hcomb := steps_append hs1 hs2
    have hlen : i + t.render.length =
        i + t.head.render.length + (termRestRender t.rest).length := by
      simp [SrcTerm.render, List.length_append]
      omega
    rw [hlen]
    exact hcomb
  · rw [termTokensD_data]
    simp only [List.map_append, hty1, hty2]

theorem head_not_num_exprrest {l : List (List Char × OperatorType × SrcTerm)}
    {rest : List Char}
    (hv : ∀ x ∈ l, allWs x.1 ∧ (x.2.1 = .Add ∨ x.2.1 = .Subtract) ∧ x.2.2.Valid)
    (hb : ∀ c, rest.head? = some c → numChar c = false) :
    ∀ c, (exprRestRender l ++ rest).head? = some c → numChar c = false := by
  intro c hc
  cases l with
  | nil => exact hb c (by simpa [exprRestRender] using hc)
  | cons y l' =>
    have heq : exprRestRender (y :: l') ++ rest =
        y.1 ++ (opText y.2.1 ++ (y.2.2.render ++ (exprRestRender l' ++ rest))) := by
      simp [exprRestRender, List.append_assoc]
    rw [heq] at hc
    exact head_not_num_ws_op _ _ _ (hv y (List.mem_cons_self _ _)).1 c hc

theorem srcterm_head_not_star {t : SrcTerm} (hv : t.Valid) (s : List Char) :
    ∀ c, (t.render ++ s).head? = some c → c ≠ '*' := by
  have heq : t.render ++ s = t.head.head.render ++
      ((expoRestRender t.head.rest ++ termRestRender t.rest) ++ s) := by
    simp [SrcTerm.render, SrcExpo.render, List.append_assoc]
  rw [heq]
  exact srcnum_head_not_star hv.1.1 _

/-- Tokenizing the `(ws (+|-) term)*` continuation of an expression. -/
theorem steps_exprrest :
    ∀ (l : List (List Char × OperatorType × SrcTerm)) (input rest : List Char) (i : Nat),
    (∀ x ∈ l, allWs x.1 ∧ (x.2.1 = .Add ∨ x.2.1 = .Subtract) ∧ x.2.2.Valid) →
    input.drop i = exprRestRender l ++ rest →
    (∀ c, rest.head? = some c → numChar c = false) →
    ∃ ts, Tokenizer.Steps ⟨input, i⟩ ts ⟨input, i + (exprRestRender l).length⟩ ∧
      ts.map Token.type_ = addChainT (l.map fun x => (x.2.1, x.2.2.data)) := by
  intro l
  induction l with
  | nil =>
    intro input rest i hv hd hb
    refine ⟨[], ?_, by simp [addChainT, exprRestRender]⟩
    have h0 : (exprRestRender ([] : List (List Char × OperatorType × SrcTerm))).length = 0 := rfl
    rw [h0, Nat.add_zero]
    exact .nil _
  | cons y l' ih =>
    intro input rest i hv hd hb
    rcases y with ⟨ws1, o, t⟩
    have hvh := hv (ws1, o, t) (List.mem_cons_self _ _)
    have hv' : ∀ x ∈ l', allWs x.1 ∧ (x.2.1 = .Add ∨ x.2.1 = .Subtract) ∧ x.2.2.Valid :=
      fun x hx => hv x (List.mem_cons_of_mem _ hx)
    have hd1 : input.drop i =
        ws1 ++ (opText o ++ (t.render ++ (exprRestRender l' ++ rest))) := by
      rw [hd]; simp [exprRestRender, List.append_assoc]
    have hstar : o = .Multiply →
        (t.render ++ (exprRestRender l' ++ rest)).head? ≠ some '*' :=
      fun _ h => srcterm_head_not_star hvh.2.2 _ '*' h rfl
    obtain ⟨tokOp, hsOp, htyOp⟩ := steps_srcop hvh.1 hd1 hstar
    have hd1' : input.drop i =
        (ws1 ++ opText o) ++ (t.render ++ (exprRestRender l' ++ rest)) := by
      rw [hd1, List.append_assoc]
    have hd2 := drop_of_drop_append hd1'
    rw [List.length_append, ← Nat.add_assoc] at hd2
    obtain ⟨tsT, hsT, htyT⟩ := steps_srcterm hvh.2.2 hd2 (head_not_num_exprrest hv' hb)
    have hd3 := drop_of_drop_append hd2
    obtain ⟨ts', hs', hty'⟩ := ih input rest _ hv' hd3 hb
    refine ⟨tokOp :: (tsT ++ ts'), ?_, ?_⟩
    · have hcomb := steps_append hsOp (steps_append hsT hs')
      have hlen : i + (exprRestRender ((ws1, o, t) :: l')).length =
          i + ws1.length + (opText o).length + t.render.length +
            (exprRestRender l').length := by
        simp [exprRestRender, List.length_append]
        omega
      rw [hlen]
      simpa using hcomb
    · simp only [List.map_cons, List.map_append, htyOp, htyT, hty', addChainT,
        List.foldr_cons, List.cons_append]

/-- The full token-kind stream of a grammar-shaped line. -/
theorem tyields_srcexpr {s : SrcExpr} (hv : s.Valid) :
    Parser.YieldsT (mkParser s.render)
      (exprT s.head.data (s.rest.map fun x => (x.2.1, x.2.2.data))) := by
  obtain ⟨hvh, hvr, hvt⟩ := hv
  have htws : ∀ c, s.tws.head? = some c → numChar c = false :=
    head_not_num_allws s.tws hvt
  have hd1 : s.render.drop 0 = s.head.render ++ (exprRestRender s.rest ++ s.tws) := by
    simp [SrcExpr.render, List.append_assoc]
  obtain ⟨ts1, hs1, hty1⟩ := steps_srcterm hvh hd1 (head_not_num_exprrest hvr htws)
  have hd2 := drop_of_drop_append hd1
  obtain ⟨ts2, hs2, hty2⟩ := steps_exprrest s.rest s.render s.tws _ hvr hd2 htws
  have hd3 := drop_of_drop_append hd2
  have hnil : Tokenizer.TYields
      ⟨s.render, 0 + s.head.render.length + (exprRestRender s.rest).length⟩ [] :=
    .nil (next_eof_ws hd3 hvt)
  have hty := steps_tyields (steps_append hs1 hs2) hnil
  rw [List.append_nil] at hty
  have := yieldsT_of_tyields hty
  rw [List.map_append, hty1, hty2] at this
  exact this

theorem srcterm_data_valid {t : SrcTerm} (hv : t.Valid) : TermDValid t.data := by
  intro x hx
  simp only [SrcTerm.data, List.mem_map] at hx
  obtain ⟨y, hy, rfl⟩ := hx
  exact (hv.2 y hy).2.1

theorem srcexpr_as_valid {s : SrcExpr} (hv : s.Valid) :
    ASValid (s.rest.map fun x => (x.2.1, x.2.2.data)) := by
  intro x hx
  simp only [List.mem_map] at hx
  obtain ⟨y, hy, rfl⟩ := hx
  exact ⟨(hv.2.1 y hy).2.1, srcterm_data_valid (hv.2.1 y hy).2.2⟩

/-- Grammar-shaped lines always evaluate to `Ok` of some value. -/
theorem evalChars_src {s : SrcExpr} (hv : s.Valid) :
    ∃ v, evalChars s.render = .ok v := by
  have hy := tyields_srcexpr hv
  have hy' : (mkParser s.render).YieldsT
      (exprT s.head.data (s.rest.map fun x => (x.2.1, x.2.2.data)) ++ []) := by
    simpa using hy
  obtain ⟨p', he, -⟩ := expression_yields hy' (srcterm_data_valid hv.1)
    (srcexpr_as_valid hv) (fun ty h => by simp at h)
  refine ⟨exprVal s.head.data (s.rest.map fun x => (x.2.1, x.2.2.data)), ?_⟩
  simp [evalChars, he]

/-! ### Remaining helper lemmas -/

/-- An unrecognised lead character makes `next` return `none` without
advancing past it (the whitespace before it is still skipped). -/
theorem next_badchar {input ws rest : List Char} {i : Nat} {c : Char}
    (hd : input.drop i = ws ++ (c :: rest))
    (hws : ∀ c' ∈ ws, c'.isWhitespace = true)
    (hnum : numChar c = false)
    (hw : c.isWhitespace = false)
    (hplus : c ≠ '+') (hminus : c ≠ '-') (hstar : c ≠ '*') (hslash : c ≠ '/') :
    Tokenizer.next ⟨input, i⟩ = (none, ⟨input, i + ws.length⟩) := by
  have hskip : Tokenizer.skipWs ⟨input, i⟩ = ⟨input, i + ws.length⟩ :=
    skipWs_of_split hd hws (fun c' hc' => by
      simp only [List.head?_cons, Option.some.injEq] at hc'
      subst hc'; exact hw)
  have hdrop2 : input.drop (i + ws.length) = c :: rest := drop_of_drop_append hd
  have hget : input[i + ws.length]? = some c := by
    rw [getElem?_eq_head_drop, hdrop2]; rfl
  simp only [Tokenizer.next, hskip, hget, hnum, Bool.false_eq_true, if_false]

/-- An upper bound on consecutive successful `next` calls: the cursor index
grows strictly and stays within the line. -/
theorem somesFrom_bound : ∀ (n : Nat) (t : Tokenizer), t.somesFrom n →
    n = 0 ∨ t.index + n ≤ t.input.length := by
  intro n
  induction n with
  | zero => exact fun t _ => Or.inl rfl
  | succ n ih =>
    intro t h
    simp only [Tokenizer.somesFrom] at h
    obtain ⟨tok, t', hnext, hrest⟩ := h
    have hb := next_some_bounds hnext
    have hin : t'.input = t.input := by
      have := next_input_eq t
      rwa [hnext] at this
    rcases ih t' hrest with rfl | hle
    · right; omega
    · right
      rw [hin] at hle
      omega

/-- Filling the lookahead buffer leaves the whole observable token stream
unchanged. -/
theorem trace_peek (p : Parser) : ∀ n, ((p.peek).2).trace n = p.trace n := by
  intro n
  cases n with
  | zero => rfl
  | succ n => simp only [Parser.trace, peek_next_eq]

theorem yieldsTB_sound : ∀ (tys : List TokenType) (p : Parser),
    p.yieldsTB tys = true → p.YieldsT tys := by
  intro tys
  induction tys with
  | nil =>
    intro p h
    simp only [Parser.yieldsTB] at h
    rcases hx : p.next with ⟨o, p'⟩
    rw [hx] at h
    cases o with
    | none => exact .nil hx
    | some tok => simp at h
  | cons ty tys ih =>
    intro p h
    simp only [Parser.yieldsTB] at h
    rcases hx : p.next with ⟨o, p'⟩
    rw [hx] at h
    cases o with
    | none => simp at h
    | some tok =>
      simp only [Bool.and_eq_true, beq_iff_eq] at h
      exact h.1 ▸ Parser.YieldsT.cons hx (ih p' h.2)

/-! ### Claim theorems -/

/-- C1: Exponentiation is left-associative.  The input line `"2 ** 3 ** 2"`
evaluates through the `expression` entry point to `Ok 64` (computed as
`(2 ** 3) ** 2`), not `512`; and in general, on a stream
`NUMBER (** NUMBER)*`, the exponent tier folds the `**` operators from the
left: `value = value.powf(next)`, i.e. a left fold of `powf`. -/
theorem C1_expo_left_assoc :
    evalChars "2 ** 3 ** 2".data = .ok 64 ∧
    evalChars "2 ** 3 ** 2".data ≠ .ok 512 ∧
    ∀ (p : Parser) (b : ℚ) (es : List ℚ),
      p.YieldsT (expoT b es) →
      ∃ p', p.expo = .ok (es.foldl powf b, p') ∧ p'.YieldsT [] := by
  refine ⟨by with_unfolding_all rfl, ?_, ?_⟩
  · rw [show evalChars "2 ** 3 ** 2".data = Except.ok 64 from by with_unfolding_all rfl]
    simp only [ne_eq, Except.ok.injEq]
    norm_num
  · intro p b es hy
    have hy' : p.YieldsT (expoT b es ++ []) := by simpa using hy
    obtain ⟨p', he, hy2⟩ := expo_yields hy' (fun ty h => by simp at h)
    exact ⟨p', by simpa [expoVal] using he, hy2⟩

/-- Witness for C1: the general fold statement applied to the concrete
one-number stream of the line `"7"`. -/
theorem C1_expo_left_assoc_witness :
    ∃ p', Parser.expo (mkParser "7".data) = .ok (([] : List ℚ).foldl powf 7, p') ∧
      Parser.YieldsT p' [] := by
  apply C1_expo_left_assoc.2.2 (mkParser "7".data) 7 []
  exact yieldsTB_sound _ _ (by with_unfolding_all rfl)

/-- C2: Multiplication binds tighter than addition.  The input line
`"2 + 3 * 4"` evaluates to `Ok 14`, and in general `expression` folds `+`/`-`
over `term` results while `term` folds `*`/`/` over exponent results: a
stream `a + b * c` evaluates to `a + (b * c)`. -/
theorem C2_precedence :
    evalChars "2 + 3 * 4".data = .ok 14 ∧
    ∀ (p : Parser) (a b c : ℚ),
      p.YieldsT [.Number a, .Operator .Add, .Number b, .Operator .Multiply, .Number c] →
      ∃ p', p.expression = .ok (a + b * c, p') ∧ p'.YieldsT [] := by
  refine ⟨by with_unfolding_all rfl, ?_⟩
  intro p a b c hy
  have hy' : p.YieldsT
      (exprT (a, [], []) [(.Add, (b, [], [(.Multiply, c, [])]))] ++ []) := by
    simpa [exprT, termTokensD, expoT, powChainT, mulChainT, addChainT] using hy
  obtain ⟨p', he, hy2⟩ := expression_yields hy'
    (by intro x hx; simp at hx)
    (by
      intro x hx
      simp only [List.mem_singleton] at hx
      subst hx
      refine ⟨Or.inl rfl, ?_⟩
      intro y hy2
      simp only [List.mem_singleton] at hy2
      subst hy2
      exact Or.inl rfl)
    (fun ty h => by simp at h)
  refine ⟨p', ?_, hy2⟩
  have hval : exprVal (a, [], []) [(OperatorType.Add, (b, [], [(OperatorType.Multiply, c, [])]))] =
      a + b * c := by
    simp [exprVal, termValD, expoVal, asStep, mdStep]
  rwa [hval] at he

/-- Witness for C2: the general precedence statement applied to the concrete
token stream of the line `"1 + 2 * 3"`. -/
theorem C2_precedence_witness :
    ∃ p', Parser.expression (mkParser "1 + 2 * 3".data) = .ok (1 + 2 * 3, p') ∧
      Parser.YieldsT p' [] := by
  apply C2_precedence.2 (mkParser "1 + 2 * 3".data) 1 2 3
  exact yieldsTB_sound _ _ (by with_unfolding_all rfl)

/-- C3: `factor` consumes exactly one token; a `Number(n)` yields `Ok n`, an
`Operator` yields the error `"expected number, got …"` (so `"+ 3"` fails with
`"expected number, got Operator(+)"`), and an exhausted stream yields the
error `"unexpected end of input"` (so `"3 +"` fails with that error and no
numeric result). -/
theorem C3_factor :
    (∀ (p p' : Parser) (tok : Token) (n : ℚ),
      p.next = (some tok, p') → tok.type_ = .Number n → p.factor = .ok (n, p')) ∧
    (∀ (p p' : Parser) (tok : Token) (op : OperatorType),
      p.next = (some tok, p') → tok.type_ = .Operator op →
        p.factor = .error ("expected number, got " ++ TokenType.display (.Operator op))) ∧
    (∀ (p p' : Parser), p.next = (none, p') →
      p.factor = .error "unexpected end of input") ∧
    evalChars "+ 3".data = .error "expected number, got Operator(+)" ∧
    evalChars "3 +".data = .error "unexpected end of input" := by
  refine ⟨?_, ?_, ?_, by with_unfolding_all rfl, by with_unfolding_all rfl⟩
  · intro p p' tok n h htok
    simp only [Parser.factor, h, htok]
  · intro p p' tok op h htok
    simp only [Parser.factor, h, htok]
  · intro p p' h
    simp only [Parser.factor, h]

/-- Witness for C3: the three `factor` contracts at concrete parser states
(the fresh parsers over `"5"`, `"+"` and `""`). -/
theorem C3_factor_witness :
    (mkParser "5".data).factor = .ok (5, ⟨none, ⟨"5".data, 1⟩⟩) ∧
    (mkParser "+".data).factor = .error "expected number, got Operator(+)" ∧
    (mkParser "".data).factor = .error "unexpected end of input" := by
  refine ⟨?_, ?_, ?_⟩
  · exact C3_factor.1 (mkParser "5".data) ⟨none, ⟨"5".data, 1⟩⟩
      ⟨.Number 5, 0, 1, ['5']⟩ 5 (by with_unfolding_all rfl) rfl
  · exact C3_factor.2.1 (mkParser "+".data) ⟨none, ⟨"+".data, 1⟩⟩
      ⟨.Operator .Add, 0, 1, ['+']⟩ .Add (by with_unfolding_all rfl) rfl
  · exact C3_factor.2.2.1 (mkParser "".data) ⟨none, ⟨"".data, 0⟩⟩
      (by with_unfolding_all rfl)

/-- C4: A consumed digits-and-dots run that fails to parse as a float (such
as `"1.2.3"`), and any lead character other than a digit, `.`, `+`, `-`, `*`,
`/` (or skipped whitespace), both make the tokenizer's `next` return `none` —
silently ending the token sequence exactly as at end-of-input, with no
distinct lexical error: evaluating `"1.2.3"` even reports
`"unexpected end of input"`. -/
theorem C4_silent_lexical_failure :
    (∀ (input ws lit rest : List Char) (i : Nat),
      input.drop i = ws ++ (lit ++ rest) →
      (∀ c ∈ ws, c.isWhitespace = true) →
      lit ≠ [] →
      (∀ c ∈ lit, numChar c = true) →
      (∀ c, rest.head? = some c → numChar c = false) →
      parseNum lit = none →
      Tokenizer.next ⟨input, i⟩ = (none, ⟨input, i + ws.length + lit.length⟩)) ∧
    (∀ (input ws rest : List Char) (i : Nat) (c : Char),
      input.drop i = ws ++ (c :: rest) →
      (∀ c' ∈ ws, c'.isWhitespace = true) →
      numChar c = false → c.isWhitespace = false →
      c ≠ '+' → c ≠ '-' → c ≠ '*' → c ≠ '/' →
      Tokenizer.next ⟨input, i⟩ = (none, ⟨input, i + ws.length⟩)) ∧
    (Tokenizer.tokenize "1.2.3".data).next = (none, ⟨"1.2.3".data, 5⟩) ∧
    (Tokenizer.tokenize "x + 1".data).next = (none, ⟨"x + 1".data, 0⟩) ∧
    evalChars "1.2.3".data = .error "unexpected end of input" := by
  refine ⟨?_, ?_, by with_unfolding_all rfl, by with_unfolding_all rfl,
    by with_unfolding_all rfl⟩
  · intro input ws lit rest i hd hws hne hall hrest hbad
    have h := next_numrun hd hws hne hall hrest
    rw [hbad] at h
    exact h
  · intro input ws rest i c hd hws hnum hw hplus hminus hstar hslash
    exact next_badchar hd hws hnum hw hplus hminus hstar hslash

/-- Witness for C4: the two general statements at the concrete lines
`"1.2.3"` (malformed numeric run) and `"x + 1"` (unrecognised lead
character). -/
theorem C4_silent_lexical_failure_witness :
    Tokenizer.next ⟨"1.2.3".data, 0⟩ =
      (none, ⟨"1.2.3".data, 0 + ([] : List Char).length + "1.2.3".data.length⟩) ∧
    Tokenizer.next ⟨"x + 1".data, 0⟩ = (none, ⟨"x + 1".data, 0 + ([] : List Char).length⟩) := by
  constructor
  · exact C4_silent_lexical_failure.1 "1.2.3".data [] "1.2.3".data [] 0
      (by with_unfolding_all rfl) (by simp) (by decide) (by decide) (by simp)
      (by with_unfolding_all rfl)
  · exact C4_silent_lexical_failure.2.1 "x + 1".data [] " + 1".data 0 'x'
      (by with_unfolding_all rfl) (by simp) (by decide) (by decide)
      (by decide) (by decide) (by decide) (by decide)

/-- C5: For every input line arranged per the grammar — valid numerals
(ASCII digits with at most one `.`), the operators `+ - * / **`, arbitrary
whitespace in every gap and at the end — evaluation via the `expression`
entry point terminates (the model is a total function) and returns `Ok` of
some value: it never errors, panics or hangs on such a line. -/
theorem C5_total_on_grammar (s : SrcExpr) (hv : s.Valid) :
    ∃ v : ℚ, evalChars s.render = .ok v :=
  evalChars_src hv

/-- Witness for C5: the concrete grammar-shaped line `"2 ** 3.5 * 4 + 17 \n"`. -/
theorem C5_total_on_grammar_witness :
    ∃ v : ℚ, evalChars sampleSrc.render = .ok v :=
  C5_total_on_grammar sampleSrc ⟨by decide, by decide, by decide⟩

/-- C6: The parser does not require the token stream to be exhausted: on a
stream beginning `NUMBER NUMBER …`, `expression` returns `Ok` with the first
number's value and the remaining tokens stay unread in order; concretely
`"2 3"` evaluates to `Ok 2` and `"2 + 3 x"` to `Ok 5` — trailing content is
silently ignored, never an error. -/
theorem C6_trailing_ignored :
    (∀ (p : Parser) (a b : ℚ) (tys : List TokenType),
      p.YieldsT (.Number a :: .Number b :: tys) →
      ∃ p', p.expression = .ok (a, p') ∧ p'.YieldsT (.Number b :: tys)) ∧
    evalChars "2 3".data = .ok 2 ∧
    evalChars "2 + 3 x".data = .ok 5 := by
  refine ⟨?_, by with_unfolding_all rfl, by with_unfolding_all rfl⟩
  intro p a b tys hy
  have hy' : p.YieldsT (exprT (a, [], []) [] ++ (.Number b :: tys)) := by
    simpa [exprT, termTokensD, expoT, powChainT, mulChainT, addChainT] using hy
  obtain ⟨p', he, hy2⟩ := expression_yields hy'
    (by intro x hx; simp at hx) (by intro x hx; simp at hx)
    (by
      intro ty h
      simp only [List.head?_cons, Option.some.injEq] at h
      subst h
      exact ⟨rfl, rfl, rfl⟩)
  refine ⟨p', ?_, hy2⟩
  have hval : exprVal (a, [], []) [] = a := by simp [exprVal, termValD, expoVal]
  rwa [hval] at he

/-- Witness for C6: the general statement at the concrete line `"2 3"`. -/
theorem C6_trailing_ignored_witness :
    ∃ p', Parser.expression (mkParser "2 3".data) = .ok (2, p') ∧
      Parser.YieldsT p' [.Number 3] := by
  apply C6_trailing_ignored.1 (mkParser "2 3".data) 2 3 []
  exact yieldsTB_sound _ _ (by with_unfolding_all rfl)

/-- C7: Every token the tokenizer produces satisfies the invariants: its
`literal` equals the slice of the source line at offsets `[start, stop)`, and
a `Number` token's value is exactly what its literal parses to. -/
theorem C7_token_invariant {t t' : Tokenizer} {tok : Token}
    (h : t.next = (some tok, t')) :
    tok.literal = listSlice t.input tok.start tok.stop ∧
    ∀ v, tok.type_ = .Number v → parseNum tok.literal = some v := by
  simp only [Tokenizer.next] at h
  split at h
  · simp at h
  case _ ch heq =>
    split at h
    case isTrue hnc =>
      split at h
      case _ hparse => simp at h
      case _ num hparse =>
        simp only [Prod.mk.injEq, Option.some.injEq] at h
        obtain ⟨rfl, rfl⟩ := h.imp_left Eq.symm |>.imp_right Eq.symm
        refine ⟨by rw [skipWs_input], ?_⟩
        intro v hv
        simp only [TokenType.Number.injEq] at hv
        subst hv
        exact hparse
    case isFalse hnc =>
      split at h
      · simp at h
      case _ tt w heq2 =>
        simp only [Prod.mk.injEq, Option.some.injEq] at h
        obtain ⟨rfl, rfl⟩ := h.imp_left Eq.symm |>.imp_right Eq.symm
        refine ⟨by rw [skipWs_input], ?_⟩
        intro v hv
        exfalso
        split at heq2 <;> (try split at heq2) <;> simp_all

/-- Witness for C7: the invariant at the first token of `"2 + 3"`. -/
theorem C7_token_invariant_witness :
    (⟨.Number 2, 0, 1, ['2']⟩ : Token).literal =
      listSlice "2 + 3".data (⟨.Number 2, 0, 1, ['2']⟩ : Token).start
        (⟨.Number 2, 0, 1, ['2']⟩ : Token).stop ∧
    ∀ v, (⟨.Number 2, 0, 1, ['2']⟩ : Token).type_ = .Number v →
      parseNum (⟨.Number 2, 0, 1, ['2']⟩ : Token).literal = some v :=
  C7_token_invariant (t := Tokenizer.tokenize "2 + 3".data)
    (by with_unfolding_all rfl)

/-- C8: For every predicate and parser state, `accept` consumes and returns
the next token exactly when it exists and satisfies the predicate; on a
non-matching head token, and on an exhausted stream, it returns no match and
the observable token stream is unchanged: every future `next` call returns
the same results in the same order. -/
theorem C8_accept (p : Parser) (check : TokenType → Bool) :
    (∀ (tok : Token) (p' : Parser), p.next = (some tok, p') → check tok.type_ = true →
      p.accept check = (some tok, p')) ∧
    (∀ (tok : Token) (p' : Parser), p.next = (some tok, p') → check tok.type_ = false →
      (p.accept check).1 = none ∧ ∀ n, ((p.accept check).2).trace n = p.trace n) ∧
    ((p.next).1 = none →
      (p.accept check).1 = none ∧ ∀ n, ((p.accept check).2).trace n = p.trace n) := by
  refine ⟨fun tok p' h hc => accept_of_next_some_true h hc, ?_, ?_⟩
  · intro tok p' h hc
    rw [accept_of_next_some_false h hc]
    exact ⟨rfl, trace_peek p⟩
  · intro h
    have h' : p.next = (none, (p.next).2) := by
      calc p.next = ((p.next).1, (p.next).2) := rfl
        _ = (none, (p.next).2) := by rw [h]
    rw [accept_of_next_none h']
    exact ⟨rfl, trace_peek p⟩

/-- Witness for C8: a matching accept on `"+ 1"`, a non-matching accept and
its unchanged trace on `"2"`, and an accept at end-of-input on `""`. -/
theorem C8_accept_witness :
    (mkParser "+ 1".data).accept asCheck =
      (some ⟨.Operator .Add, 0, 1, ['+']⟩, ⟨none, ⟨"+ 1".data, 1⟩⟩) ∧
    ((mkParser "2".data).accept powCheck).1 = none ∧
    (((mkParser "2".data).accept powCheck).2).trace 2 = (mkParser "2".data).trace 2 ∧
    ((mkParser "".data).accept powCheck).1 = none := by
  refine ⟨?_, ?_, ?_, ?_⟩
  · exact (C8_accept (mkParser "+ 1".data) asCheck).1 ⟨.Operator .Add, 0, 1, ['+']⟩
      ⟨none, ⟨"+ 1".data, 1⟩⟩ (by with_unfolding_all rfl) rfl
  · exact ((C8_accept (mkParser "2".data) powCheck).2.1 ⟨.Number 2, 0, 1, ['2']⟩
      ⟨none, ⟨"2".data, 1⟩⟩ (by with_unfolding_all rfl) rfl).1
  · exact ((C8_accept (mkParser "2".data) powCheck).2.1 ⟨.Number 2, 0, 1, ['2']⟩
      ⟨none, ⟨"2".data, 1⟩⟩ (by with_unfolding_all rfl) rfl).2 2
  · exact ((C8_accept (mkParser "".data) powCheck).2.2 (by with_unfolding_all rfl)).1

/-- C9: The tokenizer yields a finite, forward-only sequence: a successful
`next` strictly advances the cursor and keeps it within the line length; at
most `length`-of-the-line successful calls are possible; and once `next`
returns `none` with the cursor at end-of-input, every later call returns
`none` with the state unchanged. -/
theorem C9_finite :
    (∀ (t t' : Tokenizer) (tok : Token), t.next = (some tok, t') →
      t.index < t'.index ∧ t'.index ≤ t.input.length) ∧
    (∀ (t t' : Tokenizer), t.next = (none, t') → t'.input.length ≤ t'.index →
      t'.next = (none, t')) ∧
    (∀ (s : List Char) (n : Nat), (Tokenizer.tokenize s).somesFrom n → n ≤ s.length) := by
  refine ⟨fun t t' tok h => next_some_bounds h, ?_, ?_⟩
  · intro t t' h hle
    exact next_none_at_eof hle
  · intro s n h
    rcases somesFrom_bound n (Tokenizer.tokenize s) h with rfl | hle
    · omega
    · simpa [Tokenizer.tokenize] using hle

/-- Witness for C9: the cursor bounds after the first token of `"5"`, the
absorbing `none` at its end, and the three-token bound on `"2+3"`. -/
theorem C9_finite_witness :
    ((Tokenizer.tokenize "5".data).index < (⟨"5".data, 1⟩ : Tokenizer).index ∧
      (⟨"5".data, 1⟩ : Tokenizer).index ≤ (Tokenizer.tokenize "5".data).input.length) ∧
    Tokenizer.next ⟨"5".data, 1⟩ = (none, ⟨"5".data, 1⟩) ∧
    3 ≤ ("2+3".data).length := by
  refine ⟨?_, ?_, ?_⟩
  · exact C9_finite.1 (Tokenizer.tokenize "5".data) ⟨"5".data, 1⟩
      ⟨.Number 5, 0, 1, ['5']⟩ (by with_unfolding_all rfl)
  · exact C9_finite.2.1 ⟨"5".data, 1⟩ ⟨"5".data, 1⟩ (by with_unfolding_all rfl)
      (by decide)
  · apply C9_finite.2.2 "2+3".data 3
    with_unfolding_all
      exact ⟨⟨.Number 2, 0, 1, ['2']⟩, ⟨"2+3".data, 1⟩, rfl,
        ⟨.Operator .Add, 1, 2, ['+']⟩, ⟨"2+3".data, 2⟩, rfl,
        ⟨.Number 3, 2, 3, ['3']⟩, ⟨"2+3".data, 3⟩, rfl, trivial⟩

/-- C10: Whitespace between tokens does not affect evaluation: the lines
`"2+3"` and `"2 + 3"` produce the same token kinds in the same order and
evaluate to the same result, `Ok 5`. -/
theorem C10_whitespace_insensitive :
    tokenKinds "2+3".data = tokenKinds "2 + 3".data ∧
    evalChars "2+3".data = evalChars "2 + 3".data ∧
    evalChars "2+3".data = .ok 5 := by
  refine ⟨by with_unfolding_all rfl, by with_unfolding_all rfl, by with_unfolding_all rfl⟩

end MiniLexer
